import Mathlib

/-!
Verification of the FaissRAGallery core: a shallow embedding of the
multimodal FAISS index manager (`src/vectorstore/faiss_manager.py`), the
relevance-improvement layer (`src/search/smart_search.py`) and the
post-retrieval metadata filter (`src/document_processor.py`).

Modelling conventions:
* Python dicts are insertion-ordered association lists; `dget`/`dset`/`derase`
  model `d[k]`, `d[k] = v` and `del d[k]` (dicts built by these operations
  have unique keys, so erasing every pair with the key matches `del`).
* Similarity scores and vector components are rationals (`ℚ`); floating
  point rounding is not modelled.
* The embedding model and CLIP encoder are external collaborators: search
  and add operations receive the already-embedded (and, for inner-product
  indices, already L2-normalised) vectors as inputs.
* The FAISS index primitive is an external library; it is embedded as the
  list of its stored vectors, `ntotal` being the list length.  `search`
  returns the stored vectors' inner-product scores sorted descending,
  truncated to `k`; invalid slots (`idx == -1`, returned when `ntotal < k`)
  are simply absent from the list.
* Python's stable `list.sort` is embedded as `List.insertionSort`, which
  computes the same stable sort.
-/

/-- Association-list read: Python `d.get(k)` / `d[k]` (first binding wins;
dicts built by `dset` have unique keys). -/
def dget {κ β : Type} [DecidableEq κ] : List (κ × β) → κ → Option β
  | [], _ => none
  | (k, v) :: t, key => if k = key then some v else dget t key

/-- Association-list write: Python `d[k] = v` (update in place, else append,
preserving dict insertion order). -/
def dset {κ β : Type} [DecidableEq κ] : List (κ × β) → κ → β → List (κ × β)
  | [], key, v => [(key, v)]
  | (k, w) :: t, key, v => if k = key then (key, v) :: t else (k, w) :: dset t key v

/-- Association-list delete: Python `del d[k]` / `d.pop(k, None)`. -/
def derase {κ β : Type} [DecidableEq κ] : List (κ × β) → κ → List (κ × β)
  | [], _ => []
  | (k, v) :: t, key => if k = key then derase t key else (k, v) :: derase t key

/-- Substring test on character lists (helper for `pyIn`). -/
def subOf (needle : List Char) : List Char → Bool
  | [] => needle.isEmpty
  | c :: t => needle.isPrefixOf (c :: t) || subOf needle t

/-- Python's `needle in hay` substring containment on strings. -/
def pyIn (needle hay : String) : Bool := subOf needle.toList hay.toList

/-- Python's `str.lower()` restricted to the character ranges the repository
uses: ASCII letters and the Cyrillic block (А..Я plus Ё). -/
def pyLowerChar (c : Char) : Char :=
  if 'A' ≤ c ∧ c ≤ 'Z' then Char.ofNat (c.toNat + 32)
  else if 0x410 ≤ c.toNat ∧ c.toNat ≤ 0x42F then Char.ofNat (c.toNat + 32)
  else if c.toNat = 0x401 then Char.ofNat 0x451
  else c

/-- Python's `str.lower()` on a whole string. -/
def pyLower (s : String) : String := String.mk (s.toList.map pyLowerChar)

/-- Scalar metadata value (string or integer), the value type of a chunk's
`metadata` dict. -/
inductive Scalar where
  | str (v : String)
  | int (v : Int)
deriving DecidableEq, Repr

/-- Filter value in a search request: a scalar or a list of admissible
scalars (`src/document_processor.py`, `_apply_filters`). -/
inductive FilterVal where
  | scalar (v : Scalar)
  | list (vs : List Scalar)
deriving DecidableEq, Repr

/-- Search-hit dict as produced by `FAISSManager._format_search_results` /
`_search_legacy` and consumed by the reranker: `{chunk_id, score,
search_type, text, source_file, metadata}` plus the `intent_score` key the
reranker adds (absent keys are modelled by the defaults). -/
structure Hit where
  chunkId : String
  score : ℚ
  searchType : String := ""
  text : String := ""
  sourceFile : String := ""
  metadata : List (String × Scalar) := []
  intentScore : ℚ := 0
deriving DecidableEq, Repr

/-- One filter key check inside `DocumentProcessor._apply_filters`: the key
must be present in the hit's metadata and the value must equal the scalar
filter (or be a member of a list filter). -/
def filterKeyOk (md : List (String × Scalar)) (key : String) (fv : FilterVal) : Bool :=
  match dget md key with
  | none => false
  | some mv =>
    match fv with
    | .scalar s => mv = s
    | .list vs => vs.contains mv

/-- Body of the per-result loop of `_apply_filters`: `should_include` is
true iff every filter key check passes (the `break` just short-circuits the
conjunction). -/
def shouldInclude (md : List (String × Scalar)) (filters : List (String × FilterVal)) : Bool :=
  filters.all fun kv => filterKeyOk md kv.1 kv.2

/-- `DocumentProcessor._apply_filters` (lines 565-590): keep exactly the
results whose metadata passes every filter. -/
def applyFilters (results : List Hit) (filters : List (String × FilterVal)) : List Hit :=
  match results with
  | [] => []
  | h :: t =>
    if shouldInclude h.metadata filters then h :: applyFilters t filters
    else applyFilters t filters

/-- Intent-score dict of `RelevanceImprover.detect_query_intent`: the four
document categories plus the `general` baseline, in dict insertion order. -/
structure IntentScores where
  specifications : ℚ
  geology : ℚ
  photos : ℚ
  drawings : ℚ
  general : ℚ
deriving DecidableEq, Repr

/-- Keyword table `document_categories['specifications']`. -/
def specificationsKeywords : List String := ["спецификация", "ведомость", "перечень", "таблица"]

/-- Keyword table `document_categories['geology']`. -/
def geologyKeywords : List String := ["геология", "изыскания", "грунт", "почва"]

/-- Keyword table `document_categories['photos']`. -/
def photosKeywords : List String := ["фото", "изображение", "снимок", "img"]

/-- Keyword table `document_categories['drawings']`. -/
def drawingsKeywords : List String := ["чертеж", "план", "схема", "проект"]

/-- Inner loop of `detect_query_intent`: add 1.0 per category keyword that
occurs in the lowercased query. -/
def categoryCount (ql : String) (kws : List String) : ℚ :=
  kws.foldl (fun acc kw => if pyIn kw ql then acc + 1 else acc) 0

/-- Raw intent scores before normalisation (`intent_scores` after the
keyword loop of `detect_query_intent`): keyword counts per category and the
flat 0.5 `general` baseline. -/
def rawIntent (query : String) : IntentScores :=
  let ql := pyLower query
  { specifications := categoryCount ql specificationsKeywords
    geology := categoryCount ql geologyKeywords
    photos := categoryCount ql photosKeywords
    drawings := categoryCount ql drawingsKeywords
    general := 1/2 }

/-- Python `max(intent_scores.values())`. -/
def maxIntent (s : IntentScores) : ℚ :=
  max s.specifications (max s.geology (max s.photos (max s.drawings s.general)))

/-- `RelevanceImprover.detect_query_intent` (lines 96-119): count category
keywords in the lowercased query, then divide every score by the maximum
when the maximum is positive. -/
def detectQueryIntent (query : String) : IntentScores :=
  let s := rawIntent query
  let m := maxIntent s
  if m > 0 then
    { specifications := s.specifications / m
      geology := s.geology / m
      photos := s.photos / m
      drawings := s.drawings / m
      general := s.general / m }
  else s

/-- Query contains no category-defining keyword (every keyword of every
category is absent from the lowercased query). -/
def noCategoryKeyword (query : String) : Prop :=
  ∀ kw ∈ specificationsKeywords ++ geologyKeywords ++ photosKeywords ++ drawingsKeywords,
    pyIn kw (pyLower query) = false

/-- Python `metadata.get('category', '')` where the category value is a
string (the repository stores categories as strings). -/
def getStrDefault (md : List (String × Scalar)) (key : String) : String :=
  match dget md key with
  | some (.str v) => v
  | _ => ""

/-- Python `filename.endswith(('.jpg', '.png', '.jpeg'))`. -/
def endsWithAny (s : String) (suffixes : List String) : Bool :=
  suffixes.any fun suf => suf.toList.isSuffixOf s.toList

/-- Document-type inference inside `RelevanceImprover.filter_by_intent`
(lines 130-143): test the lowercased category and filename against each
category keyword set in order, with the image-extension check for photos. -/
def inferDocType (hit : Hit) : String :=
  let category := pyLower (getStrDefault hit.metadata "category")
  let filename := pyLower hit.sourceFile
  if specificationsKeywords.any (fun kw => pyIn kw category || pyIn kw filename) then
    "specifications"
  else if geologyKeywords.any (fun kw => pyIn kw category || pyIn kw filename) then
    "geology"
  else if endsWithAny filename [".jpg", ".png", ".jpeg"] then
    "photos"
  else if drawingsKeywords.any (fun kw => pyIn kw category || pyIn kw filename) then
    "drawings"
  else
    "general"

/-- Python `query_intent.get(doc_type, 0.0)` for the intent-score dict. -/
def intentGet (s : IntentScores) (docType : String) : ℚ :=
  if docType = "specifications" then s.specifications
  else if docType = "geology" then s.geology
  else if docType = "photos" then s.photos
  else if docType = "drawings" then s.drawings
  else if docType = "general" then s.general
  else 0

/-- `RelevanceImprover.filter_by_intent` (lines 121-158): drop a hit when
the maximal query-intent score exceeds 0.8 and the hit's document-type
intent match is below 0.5; surviving hits get their `intent_score` key
set. -/
def filterByIntent (results : List Hit) (queryIntent : IntentScores) : List Hit :=
  match results with
  | [] => []
  | h :: t =>
    let intentMatch := intentGet queryIntent (inferDocType h)
    if maxIntent queryIntent > 4/5 ∧ intentMatch < 1/2 then
      filterByIntent t queryIntent
    else
      { h with intentScore := intentMatch } :: filterByIntent t queryIntent

/-- Embedding vector (components in `ℚ`). -/
abbrev Vec := List ℚ

/-- Inner product, the similarity score of a `FlatIP` FAISS index. -/
def dot : Vec → Vec → ℚ
  | [], _ => 0
  | _, [] => 0
  | a :: as, b :: bs => a * b + dot as bs

/-- Ordering used by the embedded FAISS `search`: higher score first, ties
by insertion offset. -/
def annBefore (a b : ℚ × Nat) : Prop := b.1 < a.1 ∨ (a.1 = b.1 ∧ a.2 ≤ b.2)

instance : DecidableRel annBefore := fun a b => by
  unfold annBefore; infer_instance

/-- Embedded `index.search(query, k)` of the external FAISS primitive: the
`(score, offset)` pairs of all stored vectors, sorted by descending score,
truncated to `k` (slots FAISS would pad with `idx = -1` are absent). -/
def annSearch (vectors : List Vec) (q : Vec) (k : Nat) : List (ℚ × Nat) :=
  (((vectors.enum).map fun iv => (dot q iv.2, iv.1)).insertionSort annBefore).take k

/-- Per-chunk metadata dict value stored in `FAISSManager.metadata`:
`{text, source_file, chunk_index, metadata, added_date}` plus the legacy
`faiss_id` or the multimodal `text_faiss_id`/`visual_faiss_id` keys and
`has_visual_vector` (absent offset keys are `none`). -/
structure ChunkMeta where
  text : String
  sourceFile : String
  chunkIndex : Nat
  metadata : List (String × Scalar)
  addedDate : String
  faissId : Option Nat := none
  textFaissId : Option Nat := none
  visualFaissId : Option Nat := none
  hasVisualVector : Bool
deriving DecidableEq, Repr

/-- Value of the multimodal `chunk_id_to_ids` dict:
`{'text_id': X, 'visual_id': Y}`. -/
structure IdsInfo where
  textId : Option Nat
  visualId : Option Nat
deriving DecidableEq, Repr

/-- `FAISSManager` state: the one legacy or two multimodal FAISS primitives
(each embedded as its stored-vector list, `none` = not yet created), the
metadata store and the offset↔chunk-id mappings.  Tenant directory paths
and the lazily loaded embedding model are external I/O concerns and are not
part of the state. -/
structure Manager where
  clientId : String
  modelName : String
  indexType : String
  enableVisualSearch : Bool
  index : Option (List Vec)
  textIndex : Option (List Vec)
  visualIndex : Option (List Vec)
  metadata : List (String × ChunkMeta)
  idToChunkId : List (Nat × String)
  chunkIdToId : List (String × Nat)
  textIdToChunkId : List (Nat × String)
  visualIdToChunkId : List (Nat × String)
  chunkIdToIds : List (String × IdsInfo)
  dimension : Nat
  textDimension : Nat
  visualDimension : Nat
deriving DecidableEq, Repr

/-- `FAISSManager.__init__` with the repository's default settings
(`EMBEDDING_MODEL`, `FAISS_INDEX_TYPE`, dimensions from `config.py`). -/
def freshManager (clientId : String) (enableVisualSearch : Bool) : Manager where
  clientId := clientId
  modelName := "intfloat/multilingual-e5-large"
  indexType := "FlatIP"
  enableVisualSearch := enableVisualSearch
  index := none
  textIndex := none
  visualIndex := none
  metadata := []
  idToChunkId := []
  chunkIdToId := []
  textIdToChunkId := []
  visualIdToChunkId := []
  chunkIdToIds := []
  dimension := 1024
  textDimension := 1024
  visualDimension := 512

/-- `FAISSManager._format_search_results` (lines 425-453): keep the hits
whose score reaches the threshold and whose offset maps to a chunk id that
is truthy and present in the metadata store. -/
def formatResults (pairs : List (ℚ × Nat)) (searchType : String)
    (idMapping : List (Nat × String)) (metadata : List (String × ChunkMeta))
    (scoreThreshold : ℚ) : List Hit :=
  pairs.filterMap fun si =>
    if si.1 < scoreThreshold then none
    else
      match dget idMapping si.2 with
      | none => none
      | some chunkId =>
        if chunkId = "" then none
        else
          match dget metadata chunkId with
          | none => none
          | some md => some
              { chunkId := chunkId
                score := si.1
                searchType := searchType
                text := md.text
                sourceFile := md.sourceFile
                metadata := md.metadata }

/-- `FAISSManager.search_text` (lines 330-338): empty in legacy mode or
while the text index is missing/empty, otherwise an ANN search over the
text primitive (the query arrives as its externally computed embedding). -/
def searchText (m : Manager) (queryVec : Vec) (k : Nat) (scoreThreshold : ℚ) : List Hit :=
  if m.enableVisualSearch = false then []
  else
    match m.textIndex with
    | none => []
    | some vecs =>
      if vecs.length = 0 then []
      else formatResults (annSearch vecs queryVec k) "text" m.textIdToChunkId m.metadata
        scoreThreshold

/-- `FAISSManager.search_visual` (lines 340-353): empty in legacy mode or
while the visual index is missing/empty, otherwise an ANN search over the
visual primitive (query normalisation for `FlatIP` is a scalar rescale done
in floating point; the query arrives already normalised). -/
def searchVisual (m : Manager) (queryVec : Vec) (k : Nat) (scoreThreshold : ℚ) : List Hit :=
  if m.enableVisualSearch = false then []
  else
    match m.visualIndex with
    | none => []
    | some vecs =>
      if vecs.length = 0 then []
      else formatResults (annSearch vecs queryVec k) "visual" m.visualIdToChunkId m.metadata
        scoreThreshold

/-- `FAISSManager._search_legacy` (lines 295-326): search the single legacy
index; result dicts carry no `search_type` key. -/
def searchLegacy (m : Manager) (queryVec : Vec) (k : Nat) (scoreThreshold : ℚ) : List Hit :=
  match m.index with
  | none => []
  | some vecs =>
    if vecs.length = 0 then []
    else formatResults (annSearch vecs queryVec k) "" m.idToChunkId m.metadata scoreThreshold

/-- `FAISSManager.search` (lines 286-293): legacy dispatch. -/
def search (m : Manager) (queryVec : Vec) (k : Nat) (scoreThreshold : ℚ) : List Hit :=
  if m.enableVisualSearch = false then searchLegacy m queryVec k scoreThreshold
  else searchText m queryVec k scoreThreshold

/-- Value of the `all_results` dict in `search_multimodal`:
`{'text_score': …, 'visual_score': …, 'result_data': …}` with the score
keys optional. -/
structure MMEntry where
  textScore : Option ℚ
  visualScore : Option ℚ
  data : Hit
deriving DecidableEq, Repr

/-- Python read-modify-write `d[k] = f(d.get(k))` on a dict. -/
def dsetF {κ β : Type} [DecidableEq κ] (l : List (κ × β)) (key : κ) (f : Option β → β) :
    List (κ × β) :=
  dset l key (f (dget l key))

/-- Text loop of `search_multimodal` (lines 376-382): record each text
hit's score and result data under its chunk id. -/
def addTextPhase (acc : List (String × MMEntry)) (hits : List Hit) : List (String × MMEntry) :=
  hits.foldl
    (fun a h =>
      dsetF a h.chunkId fun old =>
        { textScore := some h.score, visualScore := old.bind MMEntry.visualScore, data := h })
    acc

/-- Visual loop of `search_multimodal` (lines 384-392): record each visual
hit's score, keeping already-present result data. -/
def addVisualPhase (acc : List (String × MMEntry)) (hits : List Hit) : List (String × MMEntry) :=
  hits.foldl
    (fun a h =>
      dsetF a h.chunkId fun old =>
        match old with
        | none => { textScore := none, visualScore := some h.score, data := h }
        | some e => { e with visualScore := some h.score })
    acc

/-- Combined result dict of `search_multimodal`: the copied result data
with the `combined_score`, overwritten `search_type`, `text_score` and
`visual_score` keys. -/
structure MMHit where
  chunkId : String
  score : ℚ
  searchType : String
  text : String
  sourceFile : String
  metadata : List (String × Scalar)
  combinedScore : ℚ
  textScore : ℚ
  visualScore : ℚ
deriving DecidableEq, Repr

/-- Copy a hit dict and attach the combined-score keys. -/
def mkMMHit (h : Hit) (combined : ℚ) (searchType : String) (t v : ℚ) : MMHit where
  chunkId := h.chunkId
  score := h.score
  searchType := searchType
  text := h.text
  sourceFile := h.sourceFile
  metadata := h.metadata
  combinedScore := combined
  textScore := t
  visualScore := v

/-- Score-combination loop of `search_multimodal` (lines 394-418): weighted
sum when both modalities hit, down-weighted single score otherwise. -/
def combineEntries (allResults : List (String × MMEntry)) (textWeight : ℚ) : List MMHit :=
  allResults.map fun ce =>
    let e := ce.2
    let t := e.textScore.getD 0
    let v := e.visualScore.getD 0
    match e.textScore, e.visualScore with
    | some _, some _ =>
      mkMMHit e.data (textWeight * t + (1 - textWeight) * v) "multimodal" t v
    | some _, none => mkMMHit e.data (t * textWeight) "text_only" t v
    | none, _ => mkMMHit e.data (v * (1 - textWeight)) "visual_only" t v

/-- Descending combined-score order of the final
`combined_results.sort(key=…, reverse=True)`. -/
def mmBefore (a b : MMHit) : Prop := b.combinedScore ≤ a.combinedScore

instance : DecidableRel mmBefore := fun a b => by
  unfold mmBefore; infer_instance

/-- The `combined_results` list of `search_multimodal` before sorting:
dict union of the two modality hit lists keyed by chunk id, one combined
entry per key in dict order. -/
def allCombined (textResults visualResults : List Hit) (textWeight : ℚ) : List MMHit :=
  combineEntries (addVisualPhase (addTextPhase [] textResults) visualResults) textWeight

/-- Dict-building and ranking core of `search_multimodal` (lines 373-423)
applied to the two modality hit lists: union by chunk id, combine scores,
sort descending, truncate to `k`. -/
def combineMult (textResults visualResults : List Hit) (k : Nat) (textWeight : ℚ) :
    List MMHit :=
  ((allCombined textResults visualResults textWeight).insertionSort mmBefore).take k

/-- `FAISSManager.search_multimodal` (lines 355-423): optional text and
visual queries (as externally computed embeddings), `k*2` candidates per
modality, legacy fallback to `search_text` (which is empty in legacy
mode). -/
def searchMultimodal (m : Manager) (textQuery : Option Vec) (visualQuery : Option Vec)
    (k : Nat) (textWeight : ℚ) : List MMHit :=
  if m.enableVisualSearch = false then
    match textQuery with
    | some tq => (searchText m tq k 0).map fun h => mkMMHit h h.score h.searchType 0 0
    | none => []
  else
    combineMult
      (match textQuery with
       | some tq => searchText m tq (k * 2) 0
       | none => [])
      (match visualQuery with
       | some vq => searchVisual m vq (k * 2) 0
       | none => [])
      k textWeight

instance : IsTotal MMHit mmBefore :=
  ⟨fun a b => le_total b.combinedScore a.combinedScore⟩

instance : IsTrans MMHit mmBefore :=
  ⟨fun _ _ _ hab hbc => le_trans hbc hab⟩

/-- Sample text-modality hit list for the multimodal witness. -/
def tmmHits : List Hit :=
  [{ chunkId := "a", score := 2, searchType := "text" },
   { chunkId := "b", score := 1, searchType := "text" }]

/-- Sample visual-modality hit list for the multimodal witness. -/
def vmmHits : List Hit :=
  [{ chunkId := "a", score := 3, searchType := "visual" },
   { chunkId := "c", score := 4, searchType := "visual" }]

/-- Python `self.index.ntotal if self.index else 0` on an optional
embedded primitive. -/
def annTotal (idx : Option (List Vec)) : Nat :=
  match idx with
  | none => 0
  | some v => v.length

/-- Mapping cleanup of `remove_chunks` for one removed chunk id, text part:
`self.text_id_to_chunk_id.pop(ids_info['text_id'], None)`. -/
def updTextMap (mm : Manager) (info : IdsInfo) : Manager :=
  match info.textId with
  | some tid => { mm with textIdToChunkId := derase mm.textIdToChunkId tid }
  | none => mm

/-- Mapping cleanup of `remove_chunks` for one removed chunk id, visual
part: `self.visual_id_to_chunk_id.pop(ids_info['visual_id'], None)`. -/
def updVisualMap (mm : Manager) (info : IdsInfo) : Manager :=
  match info.visualId with
  | some vid => { mm with visualIdToChunkId := derase mm.visualIdToChunkId vid }
  | none => mm

/-- Mapping cleanup of `remove_chunks` (lines 690-708) for one removed
chunk id, in the current mode. -/
def removeMappings (mm : Manager) (cid : String) : Manager :=
  if mm.enableVisualSearch then
    match dget mm.chunkIdToIds cid with
    | none => mm
    | some info =>
      { updVisualMap (updTextMap mm info) info with
        chunkIdToIds := derase (updVisualMap (updTextMap mm info) info).chunkIdToIds cid }
  else
    match dget mm.chunkIdToId cid with
    | none => mm
    | some fid =>
      { mm with idToChunkId := derase mm.idToChunkId fid,
                chunkIdToId := derase mm.chunkIdToId cid }

/-- One iteration of the `remove_chunks` loop: skip ids absent from the
metadata store, otherwise delete the metadata entry and the mode's mapping
entries; the flag reports whether a removal happened. -/
def removeStep (mm : Manager) (cid : String) : Manager × Bool :=
  match dget mm.metadata cid with
  | none => (mm, false)
  | some _ => (removeMappings { mm with metadata := derase mm.metadata cid } cid, true)

/-- Loop body of `remove_chunks` carrying `removed_count`. -/
def removeLoop (acc : Manager × Nat) (cid : String) : Manager × Nat :=
  let s := removeStep acc.1 cid
  (s.1, if s.2 then acc.2 + 1 else acc.2)

/-- `FAISSManager.remove_chunks` (lines 681-714): delete the given chunk
ids from the metadata store and the mappings only — the FAISS primitives
themselves are left untouched (the source logs that a full cleanup would
require rebuilding the index) — and report whether anything was removed. -/
def removeChunks (m : Manager) (chunkIds : List String) : Manager × Bool :=
  let r := chunkIds.foldl removeLoop (m, 0)
  (r.1, decide (0 < r.2))

/-- Concrete text-only manager with one indexed chunk, for the
`remove_chunks` counterexample. -/
def mLegacyOne : Manager :=
  { freshManager "tenant" false with
    index := some [[1]]
    metadata := [("c", { text := "hello", sourceFile := "a.txt", chunkIndex := 0,
                          metadata := [], addedDate := "2024-01-01",
                          faissId := some 0, hasVisualVector := false })]
    idToChunkId := [(0, "c")]
    chunkIdToId := [("c", 0)] }

/-- Input to an add operation: one chunk together with its externally
computed text embedding (`create_embeddings` delegates to the external
sentence-transformer and normalises for `FlatIP`). -/
structure ChunkIn where
  chunkId : String
  text : String
  sourceFile : String
  chunkIndex : Nat
  metadata : List (String × Scalar)
  vector : Vec
  addedDate : String
deriving DecidableEq, Repr

/-- `FAISSManager.create_index` (lines 71-127) as called from the add paths
(`force_recreate=False`): no-op when the mode's index(es) already exist,
otherwise fresh empty primitive(s) with cleared mappings and metadata. -/
def createIndex (m : Manager) : Manager :=
  if m.enableVisualSearch = false then
    if m.index ≠ none then m
    else { m with index := some [], idToChunkId := [], chunkIdToId := [], metadata := [] }
  else
    if m.textIndex ≠ none ∨ m.visualIndex ≠ none then m
    else { m with
            textIndex := some []
            visualIndex := some []
            textIdToChunkId := []
            visualIdToChunkId := []
            chunkIdToIds := []
            metadata := [] }

/-- Metadata entry written by `_add_chunks_legacy` (lines 178-186). -/
def legacyMeta (c : ChunkIn) (fid : Nat) : ChunkMeta where
  text := c.text
  sourceFile := c.sourceFile
  chunkIndex := c.chunkIndex
  metadata := c.metadata
  addedDate := c.addedDate
  faissId := some fid
  hasVisualVector := false

/-- Per-chunk loop of `_add_chunks_legacy` (lines 172-190): consecutive
FAISS ids `start_id + i`, metadata entry and both mapping entries per
chunk, collecting the assigned ids. -/
def addRows (m : Manager) (fid : Nat) : List ChunkIn → Manager × List Nat
  | [] => (m, [])
  | c :: rest =>
    let m' := { m with
      metadata := dset m.metadata c.chunkId (legacyMeta c fid)
      idToChunkId := dset m.idToChunkId fid c.chunkId
      chunkIdToId := dset m.chunkIdToId c.chunkId fid }
    let r := addRows m' (fid + 1) rest
    (r.1, fid :: r.2)

/-- `FAISSManager._add_chunks_legacy` (lines 155-193): lazily create the
index, append all embeddings, then record metadata and mappings per chunk. -/
def addChunksLegacy (m : Manager) (chunks : List ChunkIn) : Manager × List Nat :=
  let m0 := if m.index = none then createIndex m else m
  if chunks.isEmpty then (m0, [])
  else
    let startId := (m0.index.getD []).length
    let m1 := { m0 with index := some (m0.index.getD [] ++ chunks.map ChunkIn.vector) }
    addRows m1 startId chunks

/-- Metadata entry written by `add_text_chunk` (lines 214-223). -/
def textMeta (c : ChunkIn) (tid : Nat) : ChunkMeta where
  text := c.text
  sourceFile := c.sourceFile
  chunkIndex := c.chunkIndex
  metadata := c.metadata
  addedDate := c.addedDate
  textFaissId := some tid
  visualFaissId := none
  hasVisualVector := false

/-- `FAISSManager.add_text_chunk` (lines 197-229): legacy fallback when
visual search is disabled, otherwise append to the text primitive and
record the multimodal metadata and mappings. -/
def addTextChunk (m : Manager) (c : ChunkIn) : Manager × Nat :=
  if m.enableVisualSearch = false then
    let r := addChunksLegacy m [c]
    (r.1, r.2.headD 0)
  else
    let m0 := if m.textIndex = none then createIndex m else m
    let tid := (m0.textIndex.getD []).length
    ({ m0 with
        textIndex := some (m0.textIndex.getD [] ++ [c.vector])
        metadata := dset m0.metadata c.chunkId (textMeta c tid)
        textIdToChunkId := dset m0.textIdToChunkId tid c.chunkId
        chunkIdToIds := dset m0.chunkIdToIds c.chunkId ⟨some tid, none⟩ },
     tid)

/-- Metadata entry written by `add_multimodal_chunk` (lines 264-273). -/
def multimodalMeta (c : ChunkIn) (tid vid : Nat) : ChunkMeta where
  text := c.text
  sourceFile := c.sourceFile
  chunkIndex := c.chunkIndex
  metadata := c.metadata
  addedDate := c.addedDate
  textFaissId := some tid
  visualFaissId := some vid
  hasVisualVector := true

/-- `FAISSManager.add_multimodal_chunk` (lines 231-284): raises in legacy
mode (modelled as leaving the state unchanged, since the exception aborts
the call before any mutation); otherwise append to both primitives (the
visual vector arrives already normalised) and record metadata and all
three mappings. -/
def addMultimodalChunk (m : Manager) (c : ChunkIn) (visualVec : Vec) : Manager × Nat × Nat :=
  if m.enableVisualSearch = false then (m, 0, 0)
  else
    let m0 := if m.textIndex = none ∨ m.visualIndex = none then createIndex m else m
    let tid := (m0.textIndex.getD []).length
    let m1 := { m0 with textIndex := some (m0.textIndex.getD [] ++ [c.vector]) }
    let vid := (m1.visualIndex.getD []).length
    ({ m1 with
        visualIndex := some (m1.visualIndex.getD [] ++ [visualVec])
        metadata := dset m1.metadata c.chunkId (multimodalMeta c tid vid)
        textIdToChunkId := dset m1.textIdToChunkId tid c.chunkId
        visualIdToChunkId := dset m1.visualIdToChunkId vid c.chunkId
        chunkIdToIds := dset m1.chunkIdToIds c.chunkId ⟨some tid, some vid⟩ },
     tid, vid)

/-- `FAISSManager.add_chunks` (lines 142-153): legacy path when visual
search is disabled, otherwise one `add_text_chunk` per chunk. -/
def addChunks (m : Manager) (chunks : List ChunkIn) : Manager × List Nat :=
  if m.enableVisualSearch = false then addChunksLegacy m chunks
  else
    chunks.foldl
      (fun acc c =>
        let r := addTextChunk acc.1 c
        (r.1, acc.2 ++ [r.2]))
      (m, [])

/-- Mutual-inverse property of the legacy mappings: offset `i` maps to
chunk id `c` iff `c` maps back to `i`. -/
def InvMaps (a : List (Nat × String)) (b : List (String × Nat)) : Prop :=
  ∀ i c, dget a i = some c ↔ dget b c = some i

/-- The legacy mappings of a manager are mutually inverse. -/
def MutualInverse (m : Manager) : Prop := InvMaps m.idToChunkId m.chunkIdToId

/-- Legacy-mode operation: an `add_chunks` or `remove_chunks` call. -/
inductive LegOp where
  | add (chunks : List ChunkIn)
  | remove (ids : List String)
deriving Repr

/-- Apply one legacy-mode operation to a manager. -/
def applyLegOp (m : Manager) (op : LegOp) : Manager :=
  match op with
  | .add cs => (addChunksLegacy m cs).1
  | .remove ids => (removeChunks m ids).1

/-- Apply a sequence of legacy-mode operations. -/
def applyLegOps (m : Manager) (ops : List LegOp) : Manager :=
  ops.foldl applyLegOp m

/-- Precondition of one `add_chunks` call: its chunk ids are pairwise
distinct and none is currently mapped (after the lazy index creation the
call would perform). -/
def freshOk (m : Manager) (cs : List ChunkIn) : Bool :=
  let m0 := if m.index = none then createIndex m else m
  decide ((cs.map ChunkIn.chunkId).Nodup)
    && cs.all fun c => (dget m0.chunkIdToId c.chunkId).isNone

/-- Every `add` in the sequence satisfies `freshOk` at its point of use. -/
def okSeq (m : Manager) : List LegOp → Bool
  | [] => true
  | op :: rest =>
    (match op with
     | .add cs => freshOk m cs
     | .remove _ => true)
      && okSeq (applyLegOp m op) rest

/-- Consistency of the legacy mapping pair with the legacy primitive:
mutual inverse plus every offset in range. -/
def LegacyConsistent (m : Manager) : Prop :=
  InvMaps m.idToChunkId m.chunkIdToId
  ∧ ∀ p ∈ m.idToChunkId, p.1 < annTotal m.index

/-- Input chunk used by the legacy-mapping counterexample and witness. -/
def chunkC : ChunkIn :=
  { chunkId := "c", text := "hello", sourceFile := "a.txt", chunkIndex := 0,
    metadata := [], vector := [1], addedDate := "2024-01-01" }

/-- Manager obtained by adding the same chunk id twice in legacy mode. -/
def mDupTwice : Manager :=
  (addChunksLegacy (addChunksLegacy (freshManager "tenant" false) [chunkC]).1 [chunkC]).1

/-- Contents of `mappings.json`: per-mode offset↔chunk-id maps (JSON string
keys `str(int)` round-trip losslessly and are kept as `Nat`); keys the save
of the other mode does not write are absent (`none`), and the loader
defaults them to empty dicts. -/
structure MappingsData where
  textIdToChunkId : Option (List (Nat × String)) := none
  visualIdToChunkId : Option (List (Nat × String)) := none
  chunkIdToIds : Option (List (String × IdsInfo)) := none
  idToChunkId : Option (List (Nat × String)) := none
  chunkIdToId : Option (List (String × Nat)) := none
deriving DecidableEq, Repr

/-- Contents of `config.json` (`save_index`, lines 497-508). -/
structure ConfigData where
  modelName : String
  indexType : String
  dimension : Nat
  enableVisualSearch : Bool
  textDimension : Nat
  visualDimension : Nat
  totalVectors : Nat
  textVectors : Nat
  visualVectors : Nat
  lastUpdated : String
deriving DecidableEq, Repr

/-- The tenant directory: one optional file per persisted artefact.
`none` = the file does not exist. -/
structure TenantFiles where
  indexFile : Option (List Vec) := none
  textIndexFile : Option (List Vec) := none
  visualIndexFile : Option (List Vec) := none
  metadataFile : Option (List (String × ChunkMeta)) := none
  mappingsFile : Option MappingsData := none
  configFile : Option ConfigData := none
deriving DecidableEq, Repr

/-- `FAISSManager._get_total_vectors` (lines 512-519). -/
def totalVectorsOf (m : Manager) : Nat :=
  if m.enableVisualSearch then annTotal m.textIndex + annTotal m.visualIndex
  else annTotal m.index

/-- Index-file part of `save_index` (lines 461-474): write each primitive
that exists; files of absent primitives are left as they are on disk. -/
def saveIndexFiles (m : Manager) (fs : TenantFiles) : TenantFiles :=
  if m.enableVisualSearch then
    match m.textIndex, m.visualIndex with
    | some tv, some vv => { fs with textIndexFile := some tv, visualIndexFile := some vv }
    | some tv, none => { fs with textIndexFile := some tv }
    | none, some vv => { fs with visualIndexFile := some vv }
    | none, none => fs
  else
    match m.index with
    | some v => { fs with indexFile := some v }
    | none => fs

/-- Mappings dict written by `save_index` (lines 481-491), keyed per mode. -/
def mappingsOf (m : Manager) : MappingsData :=
  if m.enableVisualSearch then
    { textIdToChunkId := some m.textIdToChunkId
      visualIdToChunkId := some m.visualIdToChunkId
      chunkIdToIds := some m.chunkIdToIds }
  else
    { idToChunkId := some m.idToChunkId
      chunkIdToId := some m.chunkIdToId }

/-- Config dict written by `save_index` (lines 497-508). -/
def configOf (m : Manager) (now : String) : ConfigData where
  modelName := m.modelName
  indexType := m.indexType
  dimension := m.dimension
  enableVisualSearch := m.enableVisualSearch
  textDimension := m.textDimension
  visualDimension := m.visualDimension
  totalVectors := totalVectorsOf m
  textVectors := annTotal m.textIndex
  visualVectors := annTotal m.visualIndex
  lastUpdated := now

/-- `FAISSManager.save_index` (lines 457-510): write the existing
primitives, then always metadata, mappings and the config descriptor. -/
def saveIndex (m : Manager) (fs : TenantFiles) (now : String) : TenantFiles :=
  { saveIndexFiles m fs with
    metadataFile := some m.metadata
    mappingsFile := some (mappingsOf m)
    configFile := some (configOf m now) }

/-- `FAISSManager.load_index` (lines 521-581): fail (state untouched) when
any of `metadata.pkl`, `mappings.json`, `config.json` is missing; otherwise
restore the configuration, read whichever index files exist (a missing
index file silently leaves the in-memory primitive as it was), then load
metadata and the mode's mappings with empty-dict defaults. -/
def loadIndex (m : Manager) (fs : TenantFiles) : Manager × Bool :=
  match fs.metadataFile, fs.mappingsFile, fs.configFile with
  | some md, some mp, some cfg =>
    if cfg.enableVisualSearch then
      ({ m with
          modelName := cfg.modelName
          indexType := cfg.indexType
          dimension := cfg.dimension
          enableVisualSearch := cfg.enableVisualSearch
          textDimension := cfg.textDimension
          visualDimension := cfg.visualDimension
          textIndex := (match fs.textIndexFile with
            | some v => some v
            | none => m.textIndex)
          visualIndex := (match fs.visualIndexFile with
            | some v => some v
            | none => m.visualIndex)
          metadata := md
          textIdToChunkId := mp.textIdToChunkId.getD []
          visualIdToChunkId := mp.visualIdToChunkId.getD []
          chunkIdToIds := mp.chunkIdToIds.getD [] }, true)
    else
      ({ m with
          modelName := cfg.modelName
          indexType := cfg.indexType
          dimension := cfg.dimension
          enableVisualSearch := cfg.enableVisualSearch
          textDimension := cfg.textDimension
          visualDimension := cfg.visualDimension
          index := (match fs.indexFile with
            | some v => some v
            | none => m.index)
          metadata := md
          idToChunkId := mp.idToChunkId.getD []
          chunkIdToId := mp.chunkIdToId.getD [] }, true)
  | _, _, _ => (m, false)

/-- Presence flags of the per-tenant persisted file set of a text-only
tenant as the specification lists it: `index.faiss`, `metadata.pkl`,
`mappings.json`, `config.json`. -/
def legacyFilesPresent (fs : TenantFiles) : List Bool :=
  [fs.indexFile.isSome, fs.metadataFile.isSome, fs.mappingsFile.isSome, fs.configFile.isSome]

/-- Tenant directory holding metadata, mappings and config from a one-chunk
text-only save whose `index.faiss` is missing. -/
def fsMissingIndex : TenantFiles where
  metadataFile := some [("c",
    { text := "hello"
      sourceFile := "a.txt"
      chunkIndex := 0
      metadata := []
      addedDate := "2024-01-01"
      faissId := some 0
      hasVisualVector := false })]
  mappingsFile := some
    { idToChunkId := some [(0, "c")]
      chunkIdToId := some [("c", 0)] }
  configFile := some
    { modelName := "intfloat/multilingual-e5-large"
      indexType := "FlatIP"
      dimension := 1024
      enableVisualSearch := false
      textDimension := 1024
      visualDimension := 512
      totalVectors := 1
      textVectors := 0
      visualVectors := 0
      lastUpdated := "2024-01-01" }

/-- Add operation performed on a manager before a save: an `add_chunks`
batch, an `add_text_chunk`, or an `add_multimodal_chunk`. -/
inductive AddOp where
  | chunks (cs : List ChunkIn)
  | text (c : ChunkIn)
  | multimodal (c : ChunkIn) (visualVec : Vec)
deriving Repr

/-- Apply one add operation. -/
def applyAddOp (m : Manager) : AddOp → Manager
  | .chunks cs => (addChunks m cs).1
  | .text c => (addTextChunk m c).1
  | .multimodal c vv => (addMultimodalChunk m c vv).1

/-- Apply a sequence of add operations. -/
def applyAddOps (m : Manager) (ops : List AddOp) : Manager :=
  ops.foldl applyAddOp m

/-- A mapping never outlives its primitive: a missing text (visual)
primitive implies an empty text (visual) mapping.  All states reachable by
add operations satisfy this. -/
def MappingsBacked (m : Manager) : Prop :=
  (m.textIndex = none → m.textIdToChunkId = [])
  ∧ (m.visualIndex = none → m.visualIdToChunkId = [])

theorem applyFilters_sub (results : List Hit) (filters : List (String × FilterVal)) :
    applyFilters results filters = results.filter fun h => shouldInclude h.metadata filters := by
  induction results with
  | nil => rfl
  | cons h t ih =>
    by_cases hc : shouldInclude h.metadata filters
    · simp [applyFilters, hc, List.filter, ih]
    · simp [applyFilters, hc, List.filter, ih]

/-- C8: a hit is in the filtered result set iff it is in the input and, for
every filter key, the key is present in its metadata with a value equal to
the scalar filter value (or, for a list-valued filter, a member of the
list); a hit missing any filter key is excluded. -/
theorem filters_keep_iff (results : List Hit) (filters : List (String × FilterVal)) (h : Hit) :
    h ∈ applyFilters results filters ↔
      h ∈ results ∧
        ∀ kv ∈ filters, ∃ mv, dget h.metadata kv.1 = some mv ∧
          (match kv.2 with
           | .scalar s => mv = s
           | .list vs => mv ∈ vs) := by
  rw [applyFilters_sub, List.mem_filter]
  constructor
  · rintro ⟨hmem, hko⟩
    refine ⟨hmem, ?_⟩
    rintro ⟨fk, fv⟩ hkv
    have hall := (List.all_eq_true.mp hko) ⟨fk, fv⟩ hkv
    unfold filterKeyOk at hall
    rcases hmv : dget h.metadata fk with _ | mv
    · rw [hmv] at hall; exact absurd hall (by simp)
    · rw [hmv] at hall
      refine ⟨mv, hmv ▸ rfl, ?_⟩
      rcases fv with s | vs
      · simpa using hall
      · simpa [List.contains_iff_exists_mem_beq] using hall
  · rintro ⟨hmem, hcond⟩
    refine ⟨hmem, List.all_eq_true.mpr ?_⟩
    rintro ⟨fk, fv⟩ hkv
    obtain ⟨mv, hmv, hmatch⟩ := hcond ⟨fk, fv⟩ hkv
    unfold filterKeyOk
    simp only at hmv
    rw [hmv]
    rcases fv with s | vs
    · simpa using hmatch
    · simpa [List.contains_iff_exists_mem_beq] using hmatch

theorem categoryCount_nonneg (ql : String) (kws : List String) : 0 ≤ categoryCount ql kws := by
  suffices hg : ∀ a : ℚ, 0 ≤ a → 0 ≤ kws.foldl (fun acc kw => if pyIn kw ql then acc + 1 else acc) a by
    exact hg 0 le_rfl
  induction kws with
  | nil => intro a ha; simpa [categoryCount] using ha
  | cons k t ih =>
    intro a ha
    simp only [List.foldl_cons]
    by_cases hk : pyIn k ql = true
    · rw [if_pos hk]; exact ih (a + 1) (by linarith)
    · rw [if_neg hk]; exact ih a ha

theorem general_le_maxIntent (s : IntentScores) : s.general ≤ maxIntent s := by
  unfold maxIntent
  exact le_trans (le_trans (le_trans (le_max_right _ _) (le_max_right _ _)) (le_max_right _ _))
    (le_max_right _ _)

theorem maxIntent_raw_pos (q : String) : 0 < maxIntent (rawIntent q) := by
  have h : (rawIntent q).general = 1/2 := rfl
  have h2 := general_le_maxIntent (rawIntent q)
  rw [h] at h2
  linarith

theorem categoryCount_countP (ql : String) (kws : List String) :
    categoryCount ql kws = ((kws.countP fun kw => pyIn kw ql : Nat) : ℚ) := by
  suffices hg : ∀ a : ℚ,
      kws.foldl (fun acc kw => if pyIn kw ql then acc + 1 else acc) a
        = a + ((kws.countP fun kw => pyIn kw ql : Nat) : ℚ) by
    simpa [categoryCount] using hg 0
  induction kws with
  | nil => intro a; simp
  | cons k t ih =>
    intro a
    by_cases hk : pyIn k ql
    · simp [List.countP_cons, hk, ih (a + 1)]
      ring
    · simp [List.countP_cons, hk, ih a]

theorem rawIntent_abc : rawIntent "abc" = ⟨0, 0, 0, 0, 1/2⟩ := by
  unfold rawIntent
  simp only [categoryCount_countP]
  have h1 : (specificationsKeywords.countP fun kw => pyIn kw (pyLower "abc")) = 0 := by decide
  have h2 : (geologyKeywords.countP fun kw => pyIn kw (pyLower "abc")) = 0 := by decide
  have h3 : (photosKeywords.countP fun kw => pyIn kw (pyLower "abc")) = 0 := by decide
  have h4 : (drawingsKeywords.countP fun kw => pyIn kw (pyLower "abc")) = 0 := by decide
  rw [h1, h2, h3, h4]
  norm_num

/-- C3 counterexample: the query `"abc"` contains no category keyword, yet
`detect_query_intent` returns `general = 1.0` — the flat 0.5 baseline is
itself normalised away, so the claimed "flat low score" (0.5, and in any
case a score below the dominant 1.0 level) is not what the function
returns. -/
theorem intent_general_counterexample :
    (∀ kw ∈ specificationsKeywords ++ geologyKeywords ++ photosKeywords ++ drawingsKeywords,
        pyIn kw (pyLower "abc") = false)
    ∧ (detectQueryIntent "abc").general = 1
    ∧ ¬ (detectQueryIntent "abc").general = 1/2 := by
  have hd : detectQueryIntent "abc" = ⟨0, 0, 0, 0, 1⟩ := by
    unfold detectQueryIntent
    rw [rawIntent_abc]
    norm_num [maxIntent]
  refine ⟨by decide, ?_, ?_⟩
  · rw [hd]
  · rw [hd]; norm_num

theorem max_div_pos (a b m : ℚ) (hm : 0 < m) : max (a / m) (b / m) = max a b / m := by
  rcases le_total a b with hab | hab
  · rw [max_eq_right hab, max_eq_right ((div_le_div_iff_of_pos_right hm).mpr hab)]
  · rw [max_eq_left hab, max_eq_left ((div_le_div_iff_of_pos_right hm).mpr hab)]

/-- C3 (amended): `detect_query_intent` divides every category score by the
maximum raw score (which is always positive thanks to the 0.5 `general`
baseline), so the dominant intent scores exactly 1.0 and the others are
proportionally lower; for a query containing no category keyword the
returned classification is pure `general` — but its score is the normalised
1.0, not the flat 0.5 baseline. -/
theorem intent_normalization (q : String) :
    maxIntent (detectQueryIntent q) = 1
    ∧ detectQueryIntent q =
        ⟨(rawIntent q).specifications / maxIntent (rawIntent q),
         (rawIntent q).geology / maxIntent (rawIntent q),
         (rawIntent q).photos / maxIntent (rawIntent q),
         (rawIntent q).drawings / maxIntent (rawIntent q),
         (rawIntent q).general / maxIntent (rawIntent q)⟩
    ∧ (noCategoryKeyword q → detectQueryIntent q = ⟨0, 0, 0, 0, 1⟩) := by
  have hm := maxIntent_raw_pos q
  have heq : detectQueryIntent q =
      ⟨(rawIntent q).specifications / maxIntent (rawIntent q),
       (rawIntent q).geology / maxIntent (rawIntent q),
       (rawIntent q).photos / maxIntent (rawIntent q),
       (rawIntent q).drawings / maxIntent (rawIntent q),
       (rawIntent q).general / maxIntent (rawIntent q)⟩ := by
    unfold detectQueryIntent
    rw [if_pos hm]
  refine ⟨?_, heq, ?_⟩
  · rw [heq]
    show max _ _ = 1
    simp only
    rw [max_div_pos _ _ _ hm, max_div_pos _ _ _ hm, max_div_pos _ _ _ hm, max_div_pos _ _ _ hm]
    exact div_self (ne_of_gt hm)
  · intro hno
    have hraw : rawIntent q = ⟨0, 0, 0, 0, 1/2⟩ := by
      unfold rawIntent
      simp only [categoryCount_countP]
      have hz : ∀ kws : List String,
          (∀ kw ∈ kws, pyIn kw (pyLower q) = false) →
          (kws.countP fun kw => pyIn kw (pyLower q)) = 0 := by
        intro kws hkws
        apply List.countP_eq_zero.mpr
        intro kw hkw
        simp [hkws kw hkw]
      rw [hz specificationsKeywords fun kw hkw => hno kw (by simp [hkw]),
        hz geologyKeywords fun kw hkw => hno kw (by simp [hkw]),
        hz photosKeywords fun kw hkw => hno kw (by simp [hkw]),
        hz drawingsKeywords fun kw hkw => hno kw (by simp [hkw])]
      norm_num
    rw [heq, hraw]
    norm_num [maxIntent]

/-- Witness for `intent_normalization` at the keyword-free query `"abc"`. -/
theorem intent_normalization_witness :
    detectQueryIntent "abc" = ⟨0, 0, 0, 0, 1⟩ :=
  (intent_normalization "abc").2.2 (by unfold noCategoryKeyword; decide)

/-- C4: a hit is dropped by `filter_by_intent` iff the dominant query-intent
score exceeds 0.8 and the hit's inferred document-type intent match is
below 0.5; when the dominant intent score is at most 0.8 every hit is kept
(only annotated with its `intent_score`). -/
theorem intent_filter_drop_iff (results : List Hit) (qi : IntentScores) :
    (∀ h', h' ∈ filterByIntent results qi ↔
        ∃ h ∈ results,
          ¬ (maxIntent qi > 4/5 ∧ intentGet qi (inferDocType h) < 1/2) ∧
          h' = { h with intentScore := intentGet qi (inferDocType h) })
    ∧ (maxIntent qi ≤ 4/5 →
        filterByIntent results qi =
          results.map fun h => { h with intentScore := intentGet qi (inferDocType h) }) := by
  constructor
  · intro h'
    induction results with
    | nil => simp [filterByIntent]
    | cons h t ih =>
      by_cases hc : maxIntent qi > 4/5 ∧ intentGet qi (inferDocType h) < 1/2
      · rw [show filterByIntent (h :: t) qi = filterByIntent t qi by
          rw [filterByIntent]; simp only [hc, and_self, if_true]]
        rw [ih]
        constructor
        · rintro ⟨g, hg, hgc⟩; exact ⟨g, List.mem_cons_of_mem _ hg, hgc⟩
        · rintro ⟨g, hg, hgc, hgeq⟩
          rcases List.mem_cons.mp hg with rfl | hgt
          · exact absurd hc hgc
          · exact ⟨g, hgt, hgc, hgeq⟩
      · rw [show filterByIntent (h :: t) qi
            = { h with intentScore := intentGet qi (inferDocType h) } :: filterByIntent t qi by
          rw [filterByIntent]; simp only [hc, if_false]]
        rw [List.mem_cons, ih]
        constructor
        · rintro (rfl | ⟨g, hg, hgc, hgeq⟩)
          · exact ⟨h, List.mem_cons_self _ _, hc, rfl⟩
          · exact ⟨g, List.mem_cons_of_mem _ hg, hgc, hgeq⟩
        · rintro ⟨g, hg, hgc, hgeq⟩
          rcases List.mem_cons.mp hg with rfl | hgt
          · exact Or.inl hgeq
          · exact Or.inr ⟨g, hgt, hgc, hgeq⟩
  · intro hle
    induction results with
    | nil => rfl
    | cons h t ih =>
      rw [filterByIntent]
      have hc : ¬ (maxIntent qi > 4/5 ∧ intentGet qi (inferDocType h) < 1/2) := by
        rintro ⟨hgt, _⟩; linarith
      simp only [hc, if_false, List.map_cons, ih]

/-- Witness for `intent_filter_drop_iff`: a photo hit against a pure
geology intent (dominant score 1 > 0.8, photo match 0 < 0.5) is dropped,
and with a low-confidence intent nothing is dropped. -/
theorem intent_filter_drop_iff_witness :
    filterByIntent [{ chunkId := "p", score := 9/10, sourceFile := "a.jpg" }] ⟨0, 1, 0, 0, 1/2⟩
      = []
    ∧ filterByIntent [{ chunkId := "p", score := 9/10, sourceFile := "a.jpg" }] ⟨0, 1/2, 0, 0, 1/2⟩
      = [{ chunkId := "p", score := 9/10, sourceFile := "a.jpg", intentScore := 0 }] := by
  constructor
  · have h := (intent_filter_drop_iff
      [{ chunkId := "p", score := 9/10, sourceFile := "a.jpg" }] ⟨0, 1, 0, 0, 1/2⟩).1
    rcases he : filterByIntent
        [{ chunkId := "p", score := 9/10, sourceFile := "a.jpg" }] ⟨0, 1, 0, 0, 1/2⟩ with _ | ⟨x, xs⟩
    · rfl
    · exfalso
      have hx := (h x).mp (by rw [he]; exact List.mem_cons_self _ _)
      obtain ⟨g, hg, hgc, _⟩ := hx
      rcases List.mem_cons.mp hg with rfl | hgt
      · apply hgc
        have h1 : inferDocType { chunkId := "p", score := 9/10, sourceFile := "a.jpg" } = "photos" := by
          unfold inferDocType
          simp +decide [getStrDefault, dget, pyLower, pyLowerChar, pyIn, subOf, endsWithAny,
            specificationsKeywords, geologyKeywords, drawingsKeywords]
        rw [h1]
        constructor
        · show max _ _ > _
          norm_num [maxIntent]
        · have h2 : intentGet (⟨0, 1, 0, 0, 1/2⟩ : IntentScores) "photos" = 0 := by
            simp +decide [intentGet]
          rw [h2]; norm_num
      · simp at hgt
  · have h := (intent_filter_drop_iff
      [{ chunkId := "p", score := 9/10, sourceFile := "a.jpg" }] ⟨0, 1/2, 0, 0, 1/2⟩).2
    have hle : maxIntent (⟨0, 1/2, 0, 0, 1/2⟩ : IntentScores) ≤ 4/5 := by
      show max _ _ ≤ _
      norm_num [maxIntent]
    rw [h hle]
    have h1 : inferDocType { chunkId := "p", score := 9/10, sourceFile := "a.jpg" } = "photos" := by
      unfold inferDocType
      simp +decide [getStrDefault, dget, pyLower, pyLowerChar, pyIn, subOf, endsWithAny,
        specificationsKeywords, geologyKeywords, drawingsKeywords]
    simp [h1, intentGet]

/-- C7: in text-only (legacy) mode `search_visual` returns the empty list
for every visual query vector, `k` and score threshold, without error. -/
theorem visual_search_disabled_empty (m : Manager) (q : Vec) (k : Nat) (t : ℚ)
    (h : m.enableVisualSearch = false) : searchVisual m q k t = [] := by
  unfold searchVisual
  rw [h]
  rfl

/-- Witness for `visual_search_disabled_empty` on a concrete text-only
manager holding a legacy vector. -/
theorem visual_search_disabled_empty_witness :
    searchVisual { freshManager "tenant" false with index := some [[1]] } [1] 5 0 = [] :=
  visual_search_disabled_empty _ [1] 5 0 rfl

/-- C9: in text-only (legacy) mode `search_text` returns the empty list for
every query, `k` and threshold — however many vectors the legacy index
holds — and the `search` entry point dispatches to the legacy search
instead. -/
theorem text_search_disabled_empty (m : Manager) (q : Vec) (k : Nat) (t : ℚ)
    (h : m.enableVisualSearch = false) :
    searchText m q k t = [] ∧ search m q k t = searchLegacy m q k t := by
  constructor
  · unfold searchText
    rw [h]
    rfl
  · unfold search
    rw [h]
    rfl

/-- Witness for `text_search_disabled_empty` on a concrete legacy manager
whose index holds a vector. -/
theorem text_search_disabled_empty_witness :
    searchText { freshManager "tenant" false with index := some [[1]] } [1] 5 0 = [] :=
  (text_search_disabled_empty { freshManager "tenant" false with index := some [[1]] }
    [1] 5 0 rfl).1

theorem dget_dset_self {κ β : Type} [DecidableEq κ] (l : List (κ × β)) (key : κ) (v : β) :
    dget (dset l key v) key = some v := by
  induction l with
  | nil => simp [dget, dset]
  | cons p t ih =>
    by_cases hk : p.1 = key
    · obtain ⟨k, w⟩ := p
      simp only at hk
      simp [dset, hk, dget]
    · obtain ⟨k, w⟩ := p
      simp only at hk
      simp [dset, hk, dget, ih]

theorem dget_dset_ne {κ β : Type} [DecidableEq κ] (l : List (κ × β)) (key k' : κ) (v : β)
    (h : k' ≠ key) : dget (dset l key v) k' = dget l k' := by
  have hne : ¬ key = k' := fun he => h he.symm
  induction l with
  | nil => simp [dget, dset, hne]
  | cons p t ih =>
    obtain ⟨k, w⟩ := p
    by_cases hk : k = key
    · subst hk
      simp [dset, dget, hne]
    · simp only [dset, hk, if_false]
      by_cases hk2 : k = k'
      · simp [dget, hk2]
      · simp [dget, hk2, ih]

theorem dget_mem {κ β : Type} [DecidableEq κ] (l : List (κ × β)) (key : κ) (e : β)
    (h : dget l key = some e) : (key, e) ∈ l := by
  induction l with
  | nil => simp [dget] at h
  | cons p t ih =>
    obtain ⟨k, w⟩ := p
    by_cases hk : k = key
    · subst hk
      have hw : dget ((k, w) :: t) k = some w := by simp [dget]
      rw [hw] at h
      have hwe : w = e := Option.some.inj h
      subst hwe
      exact List.mem_cons_self _ _
    · simp only [dget, hk, if_false] at h
      exact List.mem_cons_of_mem _ (ih h)

theorem addTextPhase_absent (hits : List Hit) (acc : List (String × MMEntry)) (c : String)
    (hno : ∀ h ∈ hits, h.chunkId ≠ c) :
    dget (addTextPhase acc hits) c = dget acc c := by
  induction hits generalizing acc with
  | nil => rfl
  | cons g t ih =>
    show dget (addTextPhase (dsetF acc g.chunkId _) t) c = _
    rw [ih _ fun h hh => hno h (List.mem_cons_of_mem _ hh)]
    exact dget_dset_ne _ _ _ _ fun he => hno g (List.mem_cons_self _ _) he.symm

theorem addTextPhase_found (hits : List Hit) (acc : List (String × MMEntry)) (h : Hit)
    (hnodup : (hits.map Hit.chunkId).Nodup) (hmem : h ∈ hits) :
    dget (addTextPhase acc hits) h.chunkId =
      some { textScore := some h.score,
             visualScore := (dget acc h.chunkId).bind MMEntry.visualScore,
             data := h } := by
  induction hits generalizing acc with
  | nil => cases hmem
  | cons g t ih =>
    rcases List.mem_cons.mp hmem with rfl | hmt
    · show dget (addTextPhase (dsetF acc h.chunkId _) t) h.chunkId = _
      have hnot : ∀ x ∈ t, x.chunkId ≠ h.chunkId := by
        intro x hx he
        have := (List.nodup_cons.mp hnodup).1
        exact this (he ▸ List.mem_map_of_mem Hit.chunkId hx)
      rw [addTextPhase_absent t _ _ hnot]
      unfold dsetF
      exact dget_dset_self _ _ _
    · show dget (addTextPhase (dsetF acc g.chunkId _) t) h.chunkId = _
      have hne : g.chunkId ≠ h.chunkId := by
        intro he
        exact (List.nodup_cons.mp hnodup).1 (he ▸ List.mem_map_of_mem Hit.chunkId hmt)
      rw [ih _ (List.nodup_cons.mp hnodup).2 hmt]
      unfold dsetF
      rw [dget_dset_ne _ _ _ _ fun he => hne he.symm]

theorem addVisualPhase_absent (hits : List Hit) (acc : List (String × MMEntry)) (c : String)
    (hno : ∀ h ∈ hits, h.chunkId ≠ c) :
    dget (addVisualPhase acc hits) c = dget acc c := by
  induction hits generalizing acc with
  | nil => rfl
  | cons g t ih =>
    show dget (addVisualPhase (dsetF acc g.chunkId _) t) c = _
    rw [ih _ fun h hh => hno h (List.mem_cons_of_mem _ hh)]
    exact dget_dset_ne _ _ _ _ fun he => hno g (List.mem_cons_self _ _) he.symm

theorem addVisualPhase_found (hits : List Hit) (acc : List (String × MMEntry)) (h : Hit)
    (hnodup : (hits.map Hit.chunkId).Nodup) (hmem : h ∈ hits) :
    dget (addVisualPhase acc hits) h.chunkId =
      some (match dget acc h.chunkId with
            | none => { textScore := none, visualScore := some h.score, data := h }
            | some e => { e with visualScore := some h.score }) := by
  induction hits generalizing acc with
  | nil => cases hmem
  | cons g t ih =>
    rcases List.mem_cons.mp hmem with rfl | hmt
    · show dget (addVisualPhase (dsetF acc h.chunkId _) t) h.chunkId = _
      have hnot : ∀ x ∈ t, x.chunkId ≠ h.chunkId := by
        intro x hx he
        exact (List.nodup_cons.mp hnodup).1 (he ▸ List.mem_map_of_mem Hit.chunkId hx)
      rw [addVisualPhase_absent t _ _ hnot]
      unfold dsetF
      rw [dget_dset_self]
    · show dget (addVisualPhase (dsetF acc g.chunkId _) t) h.chunkId = _
      have hne : g.chunkId ≠ h.chunkId := by
        intro he
        exact (List.nodup_cons.mp hnodup).1 (he ▸ List.mem_map_of_mem Hit.chunkId hmt)
      rw [ih _ (List.nodup_cons.mp hnodup).2 hmt]
      unfold dsetF
      rw [dget_dset_ne _ _ _ _ fun he => hne he.symm]

/-- C5: in combined multimodal search, a chunk retrieved by both modalities
with text score `t` and visual score `v` gets combined score
`w*t + (1-w)*v`; a chunk retrieved only by text scores `t*w`; a chunk
retrieved only visually scores `v*(1-w)`; and the returned list is sorted
by combined score descending and truncated to `k`. -/
theorem multimodal_combined_scores (T V : List Hit) (k : Nat) (w : ℚ)
    (hT : (T.map Hit.chunkId).Nodup) (hV : (V.map Hit.chunkId).Nodup) :
    (∀ ht ∈ T, ∀ hv ∈ V, ht.chunkId = hv.chunkId →
      ∃ e ∈ allCombined T V w, e.chunkId = ht.chunkId
        ∧ e.combinedScore = w * ht.score + (1 - w) * hv.score
        ∧ e.searchType = "multimodal")
    ∧ (∀ ht ∈ T, (∀ hv ∈ V, hv.chunkId ≠ ht.chunkId) →
      ∃ e ∈ allCombined T V w, e.chunkId = ht.chunkId
        ∧ e.combinedScore = ht.score * w ∧ e.searchType = "text_only")
    ∧ (∀ hv ∈ V, (∀ ht ∈ T, ht.chunkId ≠ hv.chunkId) →
      ∃ e ∈ allCombined T V w, e.chunkId = hv.chunkId
        ∧ e.combinedScore = hv.score * (1 - w) ∧ e.searchType = "visual_only")
    ∧ List.Sorted mmBefore (combineMult T V k w)
    ∧ (combineMult T V k w).length ≤ k := by
  refine ⟨?_, ?_, ?_, ?_, ?_⟩
  · intro ht hmt hv hmv heq
    have h1 := addTextPhase_found T [] ht hT hmt
    simp only [dget, Option.none_bind] at h1
    have h2 := addVisualPhase_found V (addTextPhase [] T) hv hV hmv
    rw [← heq, h1] at h2
    have hmem2 := dget_mem _ _ _ h2
    refine ⟨_, List.mem_map_of_mem _ hmem2, rfl, ?_, rfl⟩
    rfl
  · intro ht hmt hno
    have h1 := addTextPhase_found T [] ht hT hmt
    simp only [dget, Option.none_bind] at h1
    have h2 : dget (addVisualPhase (addTextPhase [] T) V) ht.chunkId
        = some { textScore := some ht.score, visualScore := none, data := ht } := by
      rw [addVisualPhase_absent V _ _ hno, h1]
    have hmem2 := dget_mem _ _ _ h2
    refine ⟨_, List.mem_map_of_mem _ hmem2, rfl, ?_, rfl⟩
    rfl
  · intro hv hmv hno
    have h1 : dget (addTextPhase [] T) hv.chunkId = none := by
      rw [addTextPhase_absent T [] _ hno]
      rfl
    have h2 := addVisualPhase_found V (addTextPhase [] T) hv hV hmv
    rw [h1] at h2
    have hmem2 := dget_mem _ _ _ h2
    refine ⟨_, List.mem_map_of_mem _ hmem2, rfl, ?_, rfl⟩
    rfl
  · have hs := List.sorted_insertionSort mmBefore (allCombined T V w)
    exact List.Pairwise.sublist (List.take_sublist k _) hs
  · unfold combineMult
    rw [List.length_take]
    exact min_le_left _ _

/-- Witness for `multimodal_combined_scores` on two overlapping hit lists:
chunk `"a"` is in both modalities with scores 2 and 3, weight 1/2 gives
combined score 5/2, and the k=2 output is sorted and short enough. -/
theorem multimodal_combined_scores_witness :
    (∃ e ∈ allCombined tmmHits vmmHits (1/2), e.chunkId = "a"
      ∧ e.combinedScore = 1/2 * 2 + (1 - 1/2) * 3 ∧ e.searchType = "multimodal")
    ∧ List.Sorted mmBefore (combineMult tmmHits vmmHits 2 (1/2))
    ∧ (combineMult tmmHits vmmHits 2 (1/2)).length ≤ 2 := by
  have h := multimodal_combined_scores tmmHits vmmHits 2 (1/2) (by decide) (by decide)
  refine ⟨?_, h.2.2.2.1, h.2.2.2.2⟩
  have hx := h.1 { chunkId := "a", score := 2, searchType := "text" }
    (by simp [tmmHits]) { chunkId := "a", score := 3, searchType := "visual" }
    (by simp [vmmHits]) rfl
  simpa using hx

theorem updTextMap_fields (mm : Manager) (info : IdsInfo) :
    (updTextMap mm info).index = mm.index
    ∧ (updTextMap mm info).textIndex = mm.textIndex
    ∧ (updTextMap mm info).visualIndex = mm.visualIndex
    ∧ (updTextMap mm info).metadata = mm.metadata
    ∧ (updTextMap mm info).enableVisualSearch = mm.enableVisualSearch := by
  unfold updTextMap
  rcases info.textId with _ | tid <;> exact ⟨rfl, rfl, rfl, rfl, rfl⟩

theorem updVisualMap_fields (mm : Manager) (info : IdsInfo) :
    (updVisualMap mm info).index = mm.index
    ∧ (updVisualMap mm info).textIndex = mm.textIndex
    ∧ (updVisualMap mm info).visualIndex = mm.visualIndex
    ∧ (updVisualMap mm info).metadata = mm.metadata
    ∧ (updVisualMap mm info).enableVisualSearch = mm.enableVisualSearch := by
  unfold updVisualMap
  rcases info.visualId with _ | vid <;> exact ⟨rfl, rfl, rfl, rfl, rfl⟩

theorem removeMappings_fields (mm : Manager) (cid : String) :
    (removeMappings mm cid).index = mm.index
    ∧ (removeMappings mm cid).textIndex = mm.textIndex
    ∧ (removeMappings mm cid).visualIndex = mm.visualIndex
    ∧ (removeMappings mm cid).metadata = mm.metadata
    ∧ (removeMappings mm cid).enableVisualSearch = mm.enableVisualSearch := by
  unfold removeMappings
  by_cases he : mm.enableVisualSearch
  · rw [if_pos he]
    rcases dget mm.chunkIdToIds cid with _ | info
    · exact ⟨rfl, rfl, rfl, rfl, rfl⟩
    · have h1 := updTextMap_fields mm info
      have h2 := updVisualMap_fields (updTextMap mm info) info
      exact ⟨h2.1.trans h1.1, h2.2.1.trans h1.2.1, h2.2.2.1.trans h1.2.2.1,
        h2.2.2.2.1.trans h1.2.2.2.1, h2.2.2.2.2.trans h1.2.2.2.2⟩
  · rw [if_neg he]
    rcases dget mm.chunkIdToId cid with _ | fid
    · exact ⟨rfl, rfl, rfl, rfl, rfl⟩
    · exact ⟨rfl, rfl, rfl, rfl, rfl⟩

theorem derase_absent {κ β : Type} [DecidableEq κ] (l : List (κ × β)) (key : κ)
    (h : dget l key = none) : derase l key = l := by
  induction l with
  | nil => rfl
  | cons p t ih =>
    obtain ⟨k, w⟩ := p
    by_cases hk : k = key
    · subst hk
      simp [dget] at h
    · simp only [dget, hk, if_false] at h
      simp [derase, hk, ih h]

theorem removeStep_fields (mm : Manager) (cid : String) :
    (removeStep mm cid).1.index = mm.index
    ∧ (removeStep mm cid).1.textIndex = mm.textIndex
    ∧ (removeStep mm cid).1.visualIndex = mm.visualIndex
    ∧ (removeStep mm cid).1.metadata = derase mm.metadata cid := by
  unfold removeStep
  rcases hg : dget mm.metadata cid with _ | md
  · exact ⟨rfl, rfl, rfl, (derase_absent _ _ hg).symm⟩
  · have h := removeMappings_fields { mm with metadata := derase mm.metadata cid } cid
    exact ⟨h.1, h.2.1, h.2.2.1, h.2.2.2.1⟩

theorem removeChunks_fold_fields (cids : List String) (m : Manager) (n : Nat) :
    (cids.foldl removeLoop (m, n)).1.index = m.index
    ∧ (cids.foldl removeLoop (m, n)).1.textIndex = m.textIndex
    ∧ (cids.foldl removeLoop (m, n)).1.visualIndex = m.visualIndex
    ∧ (cids.foldl removeLoop (m, n)).1.metadata = cids.foldl derase m.metadata := by
  induction cids generalizing m n with
  | nil => exact ⟨rfl, rfl, rfl, rfl⟩
  | cons c t ih =>
    simp only [List.foldl_cons]
    have hs := removeStep_fields m c
    have hi := ih (removeStep m c).1 (removeLoop (m, n) c).2
    rw [hs.1, hs.2.1, hs.2.2.1, hs.2.2.2] at hi
    exact hi

theorem mem_derase {κ β : Type} [DecidableEq κ] (l : List (κ × β)) (key : κ) (p : κ × β) :
    p ∈ derase l key ↔ p ∈ l ∧ p.1 ≠ key := by
  induction l with
  | nil => simp [derase]
  | cons q t ih =>
    obtain ⟨k, w⟩ := q
    by_cases hk : k = key
    · subst hk
      rw [show derase ((k, w) :: t) k = derase t k from by simp [derase]]
      rw [ih]
      simp only [List.mem_cons]
      constructor
      · rintro ⟨hp, hne⟩
        exact ⟨Or.inr hp, hne⟩
      · rintro ⟨hor, hne⟩
        rcases hor with he | hp
        · exact absurd (by rw [he] : p.1 = k) hne
        · exact ⟨hp, hne⟩
    · rw [show derase ((k, w) :: t) key = (k, w) :: derase t key from by simp [derase, hk]]
      simp only [List.mem_cons, ih]
      constructor
      · rintro (he | ⟨hp, hne⟩)
        · refine ⟨Or.inl he, ?_⟩
          rw [he]
          exact hk
        · exact ⟨Or.inr hp, hne⟩
      · rintro ⟨hor, hne⟩
        rcases hor with he | hp
        · exact Or.inl he
        · exact Or.inr ⟨hp, hne⟩

theorem foldl_derase_all {κ β : Type} [DecidableEq κ] (keys : List κ) (l : List (κ × β))
    (hsub : ∀ p ∈ l, p.1 ∈ keys) : keys.foldl derase l = [] := by
  induction keys generalizing l with
  | nil =>
    cases l with
    | nil => rfl
    | cons p t => exact absurd (hsub p (List.mem_cons_self _ _)) (List.not_mem_nil _)
  | cons k rest ih =>
    simp only [List.foldl_cons]
    apply ih
    intro p hp
    have hm := (mem_derase l k p).mp hp
    rcases List.mem_cons.mp (hsub p hm.1) with he | hr
    · exact absurd he hm.2
    · exact hr

/-- C1 counterexample: calling `remove_chunks` with every chunk id of a
one-chunk manager empties the metadata store but leaves the FAISS
primitive untouched — its `ntotal` stays 1, not the claimed 0, because the
code deletes metadata and mappings only and never rebuilds the index. -/
theorem remove_all_ntotal_counterexample :
    annTotal (removeChunks mLegacyOne (mLegacyOne.metadata.map Prod.fst)).1.index = 1
    ∧ ¬ annTotal (removeChunks mLegacyOne (mLegacyOne.metadata.map Prod.fst)).1.index = 0
    ∧ (removeChunks mLegacyOne (mLegacyOne.metadata.map Prod.fst)).1.metadata = [] := by
  refine ⟨?_, ?_, ?_⟩ <;> decide

/-- C1 (amended): `remove_chunks` deletes the given ids from the metadata
store and the mappings but does not rebuild the ANN primitives; after
removing every chunk id currently in the metadata store, the metadata
store is empty while each primitive — legacy, text and visual — is exactly
what it was before the call (so every `ntotal` is unchanged rather than
0). -/
theorem remove_chunks_no_rebuild (m : Manager) :
    (removeChunks m (m.metadata.map Prod.fst)).1.index = m.index
    ∧ (removeChunks m (m.metadata.map Prod.fst)).1.textIndex = m.textIndex
    ∧ (removeChunks m (m.metadata.map Prod.fst)).1.visualIndex = m.visualIndex
    ∧ (removeChunks m (m.metadata.map Prod.fst)).1.metadata = [] := by
  have h := removeChunks_fold_fields (m.metadata.map Prod.fst) m 0
  refine ⟨h.1, h.2.1, h.2.2.1, ?_⟩
  rw [show (removeChunks m (m.metadata.map Prod.fst)).1
      = ((m.metadata.map Prod.fst).foldl removeLoop (m, 0)).1 from rfl]
  rw [h.2.2.2]
  exact foldl_derase_all _ _ fun p hp => List.mem_map_of_mem Prod.fst hp

theorem dget_none_of_forall {κ β : Type} [DecidableEq κ] (l : List (κ × β)) (k : κ)
    (h : ∀ p ∈ l, p.1 ≠ k) : dget l k = none := by
  induction l with
  | nil => rfl
  | cons q t ih =>
    obtain ⟨a, b⟩ := q
    have ha : ¬ a = k := h (a, b) (List.mem_cons_self _ _)
    simp only [dget, ha, if_false]
    exact ih fun p hp => h p (List.mem_cons_of_mem _ hp)

theorem dget_append {κ β : Type} [DecidableEq κ] (l l' : List (κ × β)) (x : κ) :
    dget (l ++ l') x = match dget l x with
      | some v => some v
      | none => dget l' x := by
  induction l with
  | nil => rfl
  | cons q t ih =>
    obtain ⟨a, b⟩ := q
    by_cases ha : a = x
    · simp [dget, ha]
    · simp only [List.cons_append, dget, ha, if_false]
      exact ih

theorem dset_fresh {κ β : Type} [DecidableEq κ] (l : List (κ × β)) (k : κ) (v : β)
    (h : dget l k = none) : dset l k v = l ++ [(k, v)] := by
  induction l with
  | nil => rfl
  | cons q t ih =>
    obtain ⟨a, b⟩ := q
    by_cases ha : a = k
    · subst ha
      simp [dget] at h
    · simp only [dget, ha, if_false] at h
      simp [dset, ha, ih h]

theorem dget_derase {κ β : Type} [DecidableEq κ] (l : List (κ × β)) (key x : κ) :
    dget (derase l key) x = if x = key then none else dget l x := by
  induction l with
  | nil => simp [derase, dget]
  | cons q t ih =>
    obtain ⟨a, b⟩ := q
    by_cases ha : a = key
    · subst ha
      rw [show derase ((a, b) :: t) a = derase t a from by simp [derase]]
      rw [ih]
      by_cases hx : x = a
      · simp [hx]
      · have hax : ¬ a = x := fun he => hx he.symm
        simp [hx, dget, hax]
    · rw [show derase ((a, b) :: t) key = (a, b) :: derase t key from by simp [derase, ha]]
      show (if a = x then some b else dget (derase t key) x)
        = if x = key then none else dget ((a, b) :: t) x
      by_cases hx : a = x
      · have hxk : ¬ x = key := fun he => ha (hx.trans he)
        simp [hx, hxk, dget]
      · rw [if_neg hx, ih]
        by_cases hk : x = key
        · simp [hk]
        · simp [hk, dget, hx]

theorem invMaps_append (a : List (Nat × String)) (b : List (String × Nat))
    (h : InvMaps a b) (fid : Nat) (cid : String)
    (ha : dget a fid = none) (hb : dget b cid = none) :
    InvMaps (a ++ [(fid, cid)]) (b ++ [(cid, fid)]) := by
  intro i c
  rw [dget_append, dget_append]
  rcases hga : dget a i with _ | c'
  · rcases hgb : dget b c with _ | i'
    · show dget [(fid, cid)] i = some c ↔ dget [(cid, fid)] c = some i
      simp only [dget]
      by_cases hi : fid = i
      · by_cases hc : cid = c
        · simp [hi, hc]
        · rw [if_pos hi, if_neg hc]
          constructor
          · intro he
            exact absurd (Option.some.inj he) hc
          · intro he
            cases he
      · by_cases hc : cid = c
        · rw [if_neg hi, if_pos hc]
          constructor
          · intro he
            cases he
          · intro he
            exact absurd (Option.some.inj he) hi
        · rw [if_neg hi, if_neg hc]
          constructor <;> (intro he; cases he)
    · show dget [(fid, cid)] i = some c ↔ some i' = some i
      simp only [dget]
      constructor
      · intro he
        by_cases hi : fid = i
        · rw [if_pos hi] at he
          have hc : cid = c := Option.some.inj he
          rw [← hc] at hgb
          rw [hb] at hgb
          cases hgb
        · rw [if_neg hi] at he
          cases he
      · intro he
        have hii : i' = i := Option.some.inj he
        rw [hii] at hgb
        have h2 := (h i c).mpr hgb
        rw [hga] at h2
        cases h2
  · rcases hgb : dget b c with _ | i'
    · show some c' = some c ↔ dget [(cid, fid)] c = some i
      simp only [dget]
      constructor
      · intro he
        have hcc : c' = c := Option.some.inj he
        subst hcc
        have := (h i c').mp hga
        rw [hgb] at this
        cases this
      · intro he
        by_cases hc : cid = c
        · rw [if_pos hc] at he
          have hfi : fid = i := Option.some.inj he
          rw [← hfi] at hga
          rw [ha] at hga
          cases hga
        · rw [if_neg hc] at he
          cases he
    · show some c' = some c ↔ some i' = some i
      constructor
      · intro he
        have hcc : c' = c := Option.some.inj he
        subst hcc
        have h1 := (h i c').mp hga
        rw [hgb] at h1
        rw [h1]
      · intro he
        have hii : i' = i := Option.some.inj he
        subst hii
        have h1 := (h i' c).mpr hgb
        rw [hga] at h1
        rw [h1]

theorem invMaps_erase (a : List (Nat × String)) (b : List (String × Nat))
    (h : InvMaps a b) (fid : Nat) (cid : String) (hfid : dget b cid = some fid) :
    InvMaps (derase a fid) (derase b cid) := by
  intro i c
  rw [dget_derase, dget_derase]
  by_cases hi : i = fid
  · rw [if_pos hi]
    by_cases hc : c = cid
    · rw [if_pos hc]
      constructor <;> (intro he; cases he)
    · rw [if_neg hc]
      constructor
      · intro he
        cases he
      · intro he
        exfalso
        have h1 := (h i c).mpr he
        have h2 := (h fid cid).mpr hfid
        rw [hi] at h1
        rw [h1] at h2
        exact hc (Option.some.inj h2)
  · rw [if_neg hi]
    by_cases hc : c = cid
    · rw [if_pos hc]
      constructor
      · intro he
        exfalso
        have h1 := (h i c).mp he
        rw [hc] at h1
        rw [hfid] at h1
        exact hi (Option.some.inj h1).symm
      · intro he
        cases he
    · rw [if_neg hc]
      exact h i c

theorem addRows_preserves (cs : List ChunkIn) (m : Manager) (fid : Nat)
    (hInv : InvMaps m.idToChunkId m.chunkIdToId)
    (hBound : ∀ p ∈ m.idToChunkId, p.1 < fid)
    (hfresh : ∀ c ∈ cs, dget m.chunkIdToId c.chunkId = none)
    (hnodup : (cs.map ChunkIn.chunkId).Nodup) :
    InvMaps (addRows m fid cs).1.idToChunkId (addRows m fid cs).1.chunkIdToId
    ∧ (∀ p ∈ (addRows m fid cs).1.idToChunkId, p.1 < fid + cs.length)
    ∧ (addRows m fid cs).1.index = m.index
    ∧ (addRows m fid cs).1.enableVisualSearch = m.enableVisualSearch := by
  induction cs generalizing m fid with
  | nil => exact ⟨hInv, by simpa using hBound, rfl, rfl⟩
  | cons c rest ih =>
    have hidnone : dget m.idToChunkId fid = none :=
      dget_none_of_forall _ _ fun p hp => Nat.ne_of_lt (hBound p hp)
    have hcidnone : dget m.chunkIdToId c.chunkId = none :=
      hfresh c (List.mem_cons_self _ _)
    have hselfid : dset m.idToChunkId fid c.chunkId = m.idToChunkId ++ [(fid, c.chunkId)] :=
      dset_fresh _ _ _ hidnone
    have hselfc : dset m.chunkIdToId c.chunkId fid = m.chunkIdToId ++ [(c.chunkId, fid)] :=
      dset_fresh _ _ _ hcidnone
    set m' : Manager := { m with
      metadata := dset m.metadata c.chunkId (legacyMeta c fid)
      idToChunkId := dset m.idToChunkId fid c.chunkId
      chunkIdToId := dset m.chunkIdToId c.chunkId fid } with hm'
    have hInv' : InvMaps m'.idToChunkId m'.chunkIdToId := by
      show InvMaps (dset m.idToChunkId fid c.chunkId) (dset m.chunkIdToId c.chunkId fid)
      rw [hselfid, hselfc]
      exact invMaps_append _ _ hInv fid c.chunkId hidnone hcidnone
    have hBound' : ∀ p ∈ m'.idToChunkId, p.1 < fid + 1 := by
      show ∀ p ∈ dset m.idToChunkId fid c.chunkId, p.1 < fid + 1
      rw [hselfid]
      intro p hp
      rcases List.mem_append.mp hp with hp1 | hp2
      · exact Nat.lt_succ_of_lt (hBound p hp1)
      · rcases List.mem_singleton.mp hp2 with rfl
        exact Nat.lt_succ_self _
    have hfresh' : ∀ d ∈ rest, dget m'.chunkIdToId d.chunkId = none := by
      show ∀ d ∈ rest, dget (dset m.chunkIdToId c.chunkId fid) d.chunkId = none
      intro d hd
      rw [hselfc, dget_append, hfresh d (List.mem_cons_of_mem _ hd)]
      have hne : ¬ c.chunkId = d.chunkId := by
        intro he
        exact (List.nodup_cons.mp hnodup).1 (he ▸ List.mem_map_of_mem ChunkIn.chunkId hd)
      simp [dget, hne]
    have hrec := ih m' (fid + 1) hInv' hBound' hfresh' (List.nodup_cons.mp hnodup).2
    have hstep : addRows m fid (c :: rest)
        = ((addRows m' (fid + 1) rest).1, fid :: (addRows m' (fid + 1) rest).2) := rfl
    rw [hstep]
    refine ⟨hrec.1, ?_, hrec.2.2.1, hrec.2.2.2⟩
    intro p hp
    have hb := hrec.2.1 p hp
    simp only [List.length_cons]
    omega

theorem createIndex_legacy (m : Manager) (hev : m.enableVisualSearch = false)
    (hidx : m.index = none) :
    createIndex m
      = { m with index := some [], idToChunkId := [], chunkIdToId := [], metadata := [] } := by
  unfold createIndex
  rw [hev]
  simp [hidx]

theorem addChunksLegacy_preserves (m : Manager) (cs : List ChunkIn)
    (hC : LegacyConsistent m) (hev : m.enableVisualSearch = false)
    (hok : freshOk m cs = true) :
    LegacyConsistent (addChunksLegacy m cs).1
    ∧ (addChunksLegacy m cs).1.enableVisualSearch = false := by
  obtain ⟨hok1, hok2⟩ := Bool.and_eq_true_iff.mp hok
  have hnodup : (cs.map ChunkIn.chunkId).Nodup := of_decide_eq_true hok1
  unfold addChunksLegacy
  set m0 := if m.index = none then createIndex m else m with hm0
  have hm0C : LegacyConsistent m0 ∧ m0.enableVisualSearch = false ∧ m0.index ≠ none := by
    rw [hm0]
    by_cases hidx : m.index = none
    · rw [if_pos hidx, createIndex_legacy m hev hidx]
      refine ⟨⟨?_, ?_⟩, hev, by simp⟩
      · intro i c
        simp [dget]
      · intro p hp
        simp at hp
    · rw [if_neg hidx]
      exact ⟨hC, hev, hidx⟩
  rcases hvec : m0.index with _ | xs
  · exact absurd hvec hm0C.2.2
  by_cases hcs : cs.isEmpty
  · rw [if_pos hcs]
    exact ⟨hm0C.1, hm0C.2.1⟩
  · rw [if_neg hcs]
    have hfresh : ∀ c ∈ cs, dget m0.chunkIdToId c.chunkId = none := by
      intro c hc
      have := List.all_eq_true.mp hok2 c hc
      rcases hg : dget m0.chunkIdToId c.chunkId with _ | v
      · rfl
      · rw [hm0] at this
        rw [hg] at this
        simp [Option.isNone] at this
    have hBound : ∀ p ∈ m0.idToChunkId, p.1 < (m0.index.getD []).length := by
      intro p hp
      have := hm0C.1.2 p hp
      rwa [show annTotal m0.index = (m0.index.getD []).length from by
        rcases m0.index with _ | l <;> rfl] at this
    set m1 : Manager :=
      { m0 with index := some (m0.index.getD [] ++ cs.map ChunkIn.vector) } with hm1
    have h1 : InvMaps m1.idToChunkId m1.chunkIdToId := hm0C.1.1
    have h2 : ∀ p ∈ m1.idToChunkId, p.1 < (m0.index.getD []).length := hBound
    have hr := addRows_preserves cs m1 ((m0.index.getD []).length) h1 h2 hfresh hnodup
    refine ⟨⟨hr.1, ?_⟩, ?_⟩
    · intro p hp
      have hb := hr.2.1 p hp
      have hidx : (addRows m1 ((m0.index.getD []).length) cs).1.index = m1.index := hr.2.2.1
      rw [show annTotal (addRows m1 ((m0.index.getD []).length) cs).1.index
          = (m0.index.getD []).length + cs.length from by
        rw [hidx, hm1]
        simp [annTotal]]
      exact hb
    · rw [hr.2.2.2, hm1]
      exact hm0C.2.1

theorem removeMappings_legacy_preserves (mm : Manager) (cid : String)
    (hev : mm.enableVisualSearch = false)
    (hInv : InvMaps mm.idToChunkId mm.chunkIdToId)
    (hBound : ∀ p ∈ mm.idToChunkId, p.1 < annTotal mm.index) :
    InvMaps (removeMappings mm cid).idToChunkId (removeMappings mm cid).chunkIdToId
    ∧ ∀ p ∈ (removeMappings mm cid).idToChunkId,
        p.1 < annTotal (removeMappings mm cid).index := by
  unfold removeMappings
  simp only [hev, Bool.false_eq_true, if_false]
  rcases hg : dget mm.chunkIdToId cid with _ | fid
  · exact ⟨hInv, hBound⟩
  · refine ⟨invMaps_erase _ _ hInv fid cid hg, ?_⟩
    intro p hp
    have hpm := (mem_derase _ _ _).mp hp
    exact hBound p hpm.1

theorem removeStep_legacy_preserves (mm : Manager) (cid : String)
    (hev : mm.enableVisualSearch = false) (hC : LegacyConsistent mm) :
    LegacyConsistent (removeStep mm cid).1
    ∧ (removeStep mm cid).1.enableVisualSearch = false := by
  unfold removeStep
  rcases hg : dget mm.metadata cid with _ | md
  · exact ⟨hC, hev⟩
  · have h := removeMappings_legacy_preserves
      { mm with metadata := derase mm.metadata cid } cid hev hC.1 hC.2
    refine ⟨⟨h.1, h.2⟩, ?_⟩
    have hf := removeMappings_fields { mm with metadata := derase mm.metadata cid } cid
    exact hf.2.2.2.2.trans hev

theorem removeChunks_preserves (m : Manager) (ids : List String)
    (hev : m.enableVisualSearch = false) (hC : LegacyConsistent m) :
    LegacyConsistent (removeChunks m ids).1
    ∧ (removeChunks m ids).1.enableVisualSearch = false := by
  suffices hg : ∀ (l : List String) (mm : Manager) (n : Nat),
      mm.enableVisualSearch = false → LegacyConsistent mm →
      LegacyConsistent (l.foldl removeLoop (mm, n)).1
        ∧ (l.foldl removeLoop (mm, n)).1.enableVisualSearch = false by
    exact hg ids m 0 hev hC
  intro l
  induction l with
  | nil => intro mm n h1 h2; exact ⟨h2, h1⟩
  | cons c t ih =>
    intro mm n h1 h2
    simp only [List.foldl_cons]
    have hs := removeStep_legacy_preserves mm c h1 h2
    exact ih (removeStep mm c).1 (removeLoop (mm, n) c).2 hs.2 hs.1

/-- C10 counterexample: adding the same chunk id twice (as reprocessing the
same document does, since chunk ids are content-derived) breaks the mutual
inverse — the stale offset 0 still maps to `"c"` in `id_to_chunk_id`, while
`chunk_id_to_id` now maps `"c"` to the new offset 1. -/
theorem mappings_inverse_counterexample : ¬ MutualInverse mDupTwice := by
  intro h
  have h1 : dget mDupTwice.idToChunkId 0 = some "c" := by decide
  have h2 := (h 0 "c").mp h1
  have h3 : dget mDupTwice.chunkIdToId "c" = some 1 := by decide
  rw [h2] at h3
  exact absurd (Option.some.inj h3) (by decide)

/-- C10 (amended): in legacy mode, `id_to_chunk_id` and `chunk_id_to_id`
remain mutually inverse after every sequence of `add_chunks` and
`remove_chunks` calls from a fresh manager, provided each `add_chunks` call
uses pairwise-distinct chunk ids not currently mapped (re-adding an
already-mapped chunk id overwrites one mapping direction but not the other
and breaks the inverse). -/
theorem legacy_mappings_inverse (clientId : String) (ops : List LegOp)
    (hok : okSeq (freshManager clientId false) ops = true) :
    MutualInverse (applyLegOps (freshManager clientId false) ops) := by
  suffices hg : ∀ (l : List LegOp) (m : Manager), m.enableVisualSearch = false →
      LegacyConsistent m → okSeq m l = true → LegacyConsistent (applyLegOps m l) by
    refine (hg ops _ rfl ⟨fun i c => ?_, fun p hp => ?_⟩ hok).1
    · simp [dget, freshManager]
    · simp [freshManager] at hp
  intro l
  induction l with
  | nil => intro m _ h2 _; exact h2
  | cons op rest ih =>
    intro m h1 h2 hok2
    show LegacyConsistent (applyLegOps (applyLegOp m op) rest)
    cases op with
    | add cs =>
      have hok3 : (freshOk m cs && okSeq (applyLegOp m (LegOp.add cs)) rest) = true := hok2
      obtain ⟨hopok, hrest⟩ := Bool.and_eq_true_iff.mp hok3
      have h := addChunksLegacy_preserves m cs h2 h1 hopok
      exact ih _ h.2 h.1 hrest
    | remove ids =>
      have hok3 : (true && okSeq (applyLegOp m (LegOp.remove ids)) rest) = true := hok2
      obtain ⟨_, hrest⟩ := Bool.and_eq_true_iff.mp hok3
      have h := removeChunks_preserves m ids h1 h2
      exact ih _ h.2 h.1 hrest

/-- Witness for `legacy_mappings_inverse` on the sequence add `"c"`, remove
`"c"`, add `"c"` again. -/
theorem legacy_mappings_inverse_witness :
    okSeq (freshManager "tenant" false)
        [LegOp.add [chunkC], LegOp.remove ["c"], LegOp.add [chunkC]] = true
    ∧ MutualInverse (applyLegOps (freshManager "tenant" false)
        [LegOp.add [chunkC], LegOp.remove ["c"], LegOp.add [chunkC]]) :=
  ⟨by decide, legacy_mappings_inverse "tenant" _ (by decide)⟩

/-- C6 counterexample: a text-only tenant directory holding some but not
all of its persisted files (`metadata.pkl`, `mappings.json`, `config.json`
present, `index.faiss` missing) still loads successfully — `load_index`
returns `True` with metadata and mappings populated but no index, a
partially initialized manager. -/
theorem load_incomplete_counterexample :
    (legacyFilesPresent fsMissingIndex).any (fun b => b) = true
    ∧ (legacyFilesPresent fsMissingIndex).all (fun b => b) = false
    ∧ (loadIndex (freshManager "tenant" false) fsMissingIndex).2 = true
    ∧ (loadIndex (freshManager "tenant" false) fsMissingIndex).1.index = none
    ∧ (loadIndex (freshManager "tenant" false) fsMissingIndex).1.metadata ≠ [] := by
  refine ⟨?_, ?_, ?_, ?_, ?_⟩ <;> decide

/-- C6 (amended): the loader's required file set is `metadata.pkl`,
`mappings.json` and `config.json` only; when some but not all of those
three exist, `load_index` returns false and leaves the manager exactly as
it was (never partially initialized).  Index files are outside the check: a
missing index file does not fail the load (see the counterexample). -/
theorem load_incomplete_fails (m : Manager) (fs : TenantFiles)
    (hsome : fs.metadataFile.isSome = true ∨ fs.mappingsFile.isSome = true
      ∨ fs.configFile.isSome = true)
    (hnotall : ¬ (fs.metadataFile.isSome = true ∧ fs.mappingsFile.isSome = true
      ∧ fs.configFile.isSome = true)) :
    loadIndex m fs = (m, false) := by
  unfold loadIndex
  rcases hmd : fs.metadataFile with _ | md <;>
    rcases hmp : fs.mappingsFile with _ | mp <;>
      rcases hcfg : fs.configFile with _ | cfg <;>
        first
        | rfl
        | exact absurd ⟨by rw [hmd]; rfl, by rw [hmp]; rfl, by rw [hcfg]; rfl⟩ hnotall

/-- Witness for `load_incomplete_fails`: only `metadata.pkl` exists. -/
theorem load_incomplete_fails_witness :
    loadIndex (freshManager "tenant" false) { metadataFile := some [] }
      = (freshManager "tenant" false, false) :=
  load_incomplete_fails (freshManager "tenant" false) { metadataFile := some [] }
    (Or.inl (by decide)) (by decide)

theorem backed_of_fields {m1 m2 : Manager} (h : MappingsBacked m2)
    (h1 : m1.textIndex = m2.textIndex) (h2 : m1.textIdToChunkId = m2.textIdToChunkId)
    (h3 : m1.visualIndex = m2.visualIndex) (h4 : m1.visualIdToChunkId = m2.visualIdToChunkId) :
    MappingsBacked m1 :=
  ⟨fun he => by rw [h2]; exact h.1 (h1.symm.trans he),
   fun he => by rw [h4]; exact h.2 (h3.symm.trans he)⟩

theorem createIndex_backed (m : Manager) (h : MappingsBacked m) :
    MappingsBacked (createIndex m) := by
  unfold createIndex
  by_cases hev : m.enableVisualSearch = false
  · rw [if_pos hev]
    by_cases hidx : m.index ≠ none
    · rw [if_pos hidx]; exact h
    · rw [if_neg hidx]; exact h
  · rw [if_neg hev]
    by_cases hg : m.textIndex ≠ none ∨ m.visualIndex ≠ none
    · rw [if_pos hg]; exact h
    · rw [if_neg hg]
      exact ⟨fun _ => rfl, fun _ => rfl⟩

theorem addRows_mm_fields (cs : List ChunkIn) (m : Manager) (fid : Nat) :
    (addRows m fid cs).1.textIndex = m.textIndex
    ∧ (addRows m fid cs).1.visualIndex = m.visualIndex
    ∧ (addRows m fid cs).1.textIdToChunkId = m.textIdToChunkId
    ∧ (addRows m fid cs).1.visualIdToChunkId = m.visualIdToChunkId := by
  induction cs generalizing m fid with
  | nil => exact ⟨rfl, rfl, rfl, rfl⟩
  | cons c rest ih =>
    exact ih { m with
      metadata := dset m.metadata c.chunkId (legacyMeta c fid)
      idToChunkId := dset m.idToChunkId fid c.chunkId
      chunkIdToId := dset m.chunkIdToId c.chunkId fid } (fid + 1)

theorem addChunksLegacy_backed (m : Manager) (cs : List ChunkIn) (h : MappingsBacked m) :
    MappingsBacked (addChunksLegacy m cs).1 := by
  unfold addChunksLegacy
  set m0 := if m.index = none then createIndex m else m with hm0
  have h0 : MappingsBacked m0 := by
    rw [hm0]
    by_cases hidx : m.index = none
    · rw [if_pos hidx]; exact createIndex_backed m h
    · rw [if_neg hidx]; exact h
  by_cases hcs : cs.isEmpty
  · rw [if_pos hcs]; exact h0
  · rw [if_neg hcs]
    set m1 : Manager := { m0 with index := some (m0.index.getD [] ++ cs.map ChunkIn.vector) }
      with hm1
    have hf := addRows_mm_fields cs m1 ((m0.index.getD []).length)
    exact backed_of_fields h0 hf.1 hf.2.2.1 hf.2.1 hf.2.2.2

theorem addTextChunk_backed (m : Manager) (c : ChunkIn) (h : MappingsBacked m) :
    MappingsBacked (addTextChunk m c).1 := by
  unfold addTextChunk
  by_cases hev : m.enableVisualSearch = false
  · rw [if_pos hev]
    exact addChunksLegacy_backed m [c] h
  · rw [if_neg hev]
    set m0 := if m.textIndex = none then createIndex m else m with hm0
    have h0 : MappingsBacked m0 := by
      rw [hm0]
      by_cases hti : m.textIndex = none
      · rw [if_pos hti]; exact createIndex_backed m h
      · rw [if_neg hti]; exact h
    refine ⟨fun he => Option.noConfusion he, fun he => h0.2 he⟩

theorem addMultimodalChunk_backed (m : Manager) (c : ChunkIn) (vv : Vec)
    (h : MappingsBacked m) : MappingsBacked (addMultimodalChunk m c vv).1 := by
  unfold addMultimodalChunk
  by_cases hev : m.enableVisualSearch = false
  · rw [if_pos hev]; exact h
  · rw [if_neg hev]
    refine ⟨fun he => Option.noConfusion he, fun he => Option.noConfusion he⟩

theorem addChunks_backed (m : Manager) (cs : List ChunkIn) (h : MappingsBacked m) :
    MappingsBacked (addChunks m cs).1 := by
  unfold addChunks
  by_cases hev : m.enableVisualSearch = false
  · rw [if_pos hev]; exact addChunksLegacy_backed m cs h
  · rw [if_neg hev]
    suffices hg : ∀ (l : List ChunkIn) (acc : Manager × List Nat), MappingsBacked acc.1 →
        MappingsBacked (l.foldl
          (fun acc c =>
            let r := addTextChunk acc.1 c
            (r.1, acc.2 ++ [r.2])) acc).1 by
      exact hg cs (m, []) h
    intro l
    induction l with
    | nil => intro acc ha; exact ha
    | cons c rest ih =>
      intro acc ha
      exact ih _ (addTextChunk_backed acc.1 c ha)

theorem applyAddOps_backed (ops : List AddOp) (m : Manager) (h : MappingsBacked m) :
    MappingsBacked (applyAddOps m ops) := by
  induction ops generalizing m with
  | nil => exact h
  | cons op rest ih =>
    show MappingsBacked (applyAddOps (applyAddOp m op) rest)
    apply ih
    cases op with
    | chunks cs => exact addChunks_backed m cs h
    | text c => exact addTextChunk_backed m c h
    | multimodal c vv => exact addMultimodalChunk_backed m c vv h

theorem searchText_state {m1 m2 : Manager} (qv : Vec) (k : Nat) (thr : ℚ)
    (he : m1.enableVisualSearch = m2.enableVisualSearch)
    (ht : m1.textIndex = m2.textIndex)
    (hmp : m1.textIdToChunkId = m2.textIdToChunkId)
    (hmd : m1.metadata = m2.metadata) :
    searchText m1 qv k thr = searchText m2 qv k thr := by
  unfold searchText
  rw [he, ht, hmp, hmd]

theorem searchVisual_state {m1 m2 : Manager} (qv : Vec) (k : Nat) (thr : ℚ)
    (he : m1.enableVisualSearch = m2.enableVisualSearch)
    (hv : m1.visualIndex = m2.visualIndex)
    (hmp : m1.visualIdToChunkId = m2.visualIdToChunkId)
    (hmd : m1.metadata = m2.metadata) :
    searchVisual m1 qv k thr = searchVisual m2 qv k thr := by
  unfold searchVisual
  rw [he, hv, hmp, hmd]

theorem searchText_off (m : Manager) (qv : Vec) (k : Nat) (thr : ℚ)
    (h : m.enableVisualSearch = false) : searchText m qv k thr = [] := by
  unfold searchText
  rw [h]
  rfl

theorem searchVisual_off (m : Manager) (qv : Vec) (k : Nat) (thr : ℚ)
    (h : m.enableVisualSearch = false) : searchVisual m qv k thr = [] := by
  unfold searchVisual
  rw [h]
  rfl

theorem formatResults_nil_map (pairs : List (ℚ × Nat)) (st : String)
    (md : List (String × ChunkMeta)) (thr : ℚ) :
    formatResults pairs st [] md thr = [] := by
  unfold formatResults
  induction pairs with
  | nil => rfl
  | cons p t ih =>
    rw [List.filterMap_cons]
    by_cases hp : p.1 < thr
    · rw [if_pos hp]
      exact ih
    · rw [if_neg hp]
      exact ih

theorem searchText_nil_mapping (m : Manager) (qv : Vec) (k : Nat) (thr : ℚ)
    (h : m.textIdToChunkId = []) : searchText m qv k thr = [] := by
  unfold searchText
  by_cases he : m.enableVisualSearch = false
  · rw [if_pos he]
  · rw [if_neg he]
    rcases m.textIndex with _ | vecs
    · rfl
    · show (if vecs.length = 0 then ([] : List Hit)
          else formatResults (annSearch vecs qv k) "text" m.textIdToChunkId m.metadata thr) = []
      by_cases hl : vecs.length = 0
      · rw [if_pos hl]
      · rw [if_neg hl, h]
        exact formatResults_nil_map _ _ _ _

theorem searchVisual_nil_mapping (m : Manager) (qv : Vec) (k : Nat) (thr : ℚ)
    (h : m.visualIdToChunkId = []) : searchVisual m qv k thr = [] := by
  unfold searchVisual
  by_cases he : m.enableVisualSearch = false
  · rw [if_pos he]
  · rw [if_neg he]
    rcases m.visualIndex with _ | vecs
    · rfl
    · show (if vecs.length = 0 then ([] : List Hit)
          else formatResults (annSearch vecs qv k) "visual" m.visualIdToChunkId m.metadata thr) = []
      by_cases hl : vecs.length = 0
      · rw [if_pos hl]
      · rw [if_neg hl, h]
        exact formatResults_nil_map _ _ _ _

theorem loadIndex_some (m : Manager) (fs : TenantFiles)
    (md : List (String × ChunkMeta)) (mp : MappingsData) (cfg : ConfigData)
    (h1 : fs.metadataFile = some md) (h2 : fs.mappingsFile = some mp)
    (h3 : fs.configFile = some cfg) :
    loadIndex m fs =
      (if cfg.enableVisualSearch then
        ({ m with
            modelName := cfg.modelName
            indexType := cfg.indexType
            dimension := cfg.dimension
            enableVisualSearch := cfg.enableVisualSearch
            textDimension := cfg.textDimension
            visualDimension := cfg.visualDimension
            textIndex := (match fs.textIndexFile with
              | some v => some v
              | none => m.textIndex)
            visualIndex := (match fs.visualIndexFile with
              | some v => some v
              | none => m.visualIndex)
            metadata := md
            textIdToChunkId := mp.textIdToChunkId.getD []
            visualIdToChunkId := mp.visualIdToChunkId.getD []
            chunkIdToIds := mp.chunkIdToIds.getD [] }, true)
      else
        ({ m with
            modelName := cfg.modelName
            indexType := cfg.indexType
            dimension := cfg.dimension
            enableVisualSearch := cfg.enableVisualSearch
            textDimension := cfg.textDimension
            visualDimension := cfg.visualDimension
            index := (match fs.indexFile with
              | some v => some v
              | none => m.index)
            metadata := md
            idToChunkId := mp.idToChunkId.getD []
            chunkIdToId := mp.chunkIdToId.getD [] }, true)) := by
  unfold loadIndex
  rw [h1, h2, h3]

theorem roundtrip_core (m m2 : Manager) (fs : TenantFiles) (now : String)
    (hB : MappingsBacked m) (qv : Vec) (k : Nat) (thr : ℚ) :
    (loadIndex m2 (saveIndex m fs now)).2 = true
    ∧ searchText (loadIndex m2 (saveIndex m fs now)).1 qv k thr = searchText m qv k thr
    ∧ searchVisual (loadIndex m2 (saveIndex m fs now)).1 qv k thr
        = searchVisual m qv k thr := by
  have hL := loadIndex_some m2 (saveIndex m fs now) m.metadata (mappingsOf m)
    (configOf m now) rfl rfl rfl
  rw [hL]
  by_cases hev : m.enableVisualSearch = false
  · rw [show (configOf m now).enableVisualSearch = false from hev]
    rw [if_neg Bool.false_ne_true]
    refine ⟨rfl, ?_, ?_⟩
    · rw [searchText_off _ qv k thr rfl, searchText_off m qv k thr hev]
    · rw [searchVisual_off _ qv k thr rfl, searchVisual_off m qv k thr hev]
  · have hev2 : m.enableVisualSearch = true := by
      rcases hx : m.enableVisualSearch with _ | _
      · exact absurd hx hev
      · rfl
    rw [show (configOf m now).enableVisualSearch = true from hev2]
    rw [if_pos rfl]
    have hmpT : (mappingsOf m).textIdToChunkId.getD [] = m.textIdToChunkId := by
      unfold mappingsOf
      rw [hev2]
      rfl
    have hmpV : (mappingsOf m).visualIdToChunkId.getD [] = m.visualIdToChunkId := by
      unfold mappingsOf
      rw [hev2]
      rfl
    refine ⟨rfl, ?_, ?_⟩
    · rcases hti : m.textIndex with _ | tvecs
      · rw [searchText_nil_mapping m qv k thr (hB.1 hti)]
        apply searchText_nil_mapping
        show (mappingsOf m).textIdToChunkId.getD [] = []
        rw [hmpT]
        exact hB.1 hti
      · have hsf : (saveIndexFiles m fs).textIndexFile = some tvecs := by
          unfold saveIndexFiles
          rw [hev2, hti]
          rcases hvi : m.visualIndex with _ | vvecs <;> rfl
        apply searchText_state qv k thr
        · exact hev2.symm
        · show (match (saveIndexFiles m fs).textIndexFile with
              | some v => some v
              | none => m2.textIndex) = m.textIndex
          rw [hsf, hti]
        · exact hmpT
        · rfl
    · rcases hvi : m.visualIndex with _ | vvecs
      · rw [searchVisual_nil_mapping m qv k thr (hB.2 hvi)]
        apply searchVisual_nil_mapping
        show (mappingsOf m).visualIdToChunkId.getD [] = []
        rw [hmpV]
        exact hB.2 hvi
      · have hsf : (saveIndexFiles m fs).visualIndexFile = some vvecs := by
          unfold saveIndexFiles
          rw [hev2, hvi]
          rcases hti : m.textIndex with _ | tvecs <;> rfl
        apply searchVisual_state qv k thr
        · exact hev2.symm
        · show (match (saveIndexFiles m fs).visualIndexFile with
              | some v => some v
              | none => m2.visualIndex) = m.visualIndex
          rw [hsf, hvi]
        · exact hmpV
        · rfl

/-- C2: after any sequence of add operations on a fresh manager, saving and
then loading into a fresh manager for the same client succeeds and yields a
manager whose `search_text` and `search_visual` return exactly the results
of the original manager, for every query embedding, `k` and threshold
(scores are modelled exactly, in `ℚ`, as the on-disk round trip of the
vectors is byte-identical). -/
theorem save_load_roundtrip (clientId : String) (evs evs2 : Bool) (ops : List AddOp)
    (fs : TenantFiles) (now : String) (qv : Vec) (k : Nat) (thr : ℚ) :
    (loadIndex (freshManager clientId evs2)
        (saveIndex (applyAddOps (freshManager clientId evs) ops) fs now)).2 = true
    ∧ searchText (loadIndex (freshManager clientId evs2)
        (saveIndex (applyAddOps (freshManager clientId evs) ops) fs now)).1 qv k thr
      = searchText (applyAddOps (freshManager clientId evs) ops) qv k thr
    ∧ searchVisual (loadIndex (freshManager clientId evs2)
        (saveIndex (applyAddOps (freshManager clientId evs) ops) fs now)).1 qv k thr
      = searchVisual (applyAddOps (freshManager clientId evs) ops) qv k thr := by
  have hB : MappingsBacked (applyAddOps (freshManager clientId evs) ops) :=
    applyAddOps_backed ops (freshManager clientId evs) ⟨fun _ => rfl, fun _ => rfl⟩
  exact roundtrip_core (applyAddOps (freshManager clientId evs) ops)
    (freshManager clientId evs2) fs now hB qv k thr
